import Mathlib

/-!
Verification development for the distributed keyword-index store
(crates/ads dynamic accumulator, crates/storager MPT and ADS wrappers,
crates/manager proof verifier).

Modelling conventions, used throughout:

* The arithmetic of the BLS12-381 scalar field Fr lives in the external
  arkworks crates; per the spec (section 3) it is a prime field, so it is
  modelled as an arbitrary decidable field F.  Group elements of G1/G2/GT
  are represented by their discrete logarithms with respect to the fixed
  generators g1, g2, e(g1,g2): the point g1^x is modelled by x : F.
  Scalar multiplication of a point by k becomes multiplication of the
  exponent by k, point addition becomes addition of exponents, and a
  pairing equation e(g1^a, g2^b) = e(g1^c, g2^d) becomes a * b = c * d
  in F.  Equality of compressed point encodings is equality of group
  elements, hence equality in F (the encoding is injective).  Witness
  theorems instantiate F with the prime field ZMod 101.
* Modelled from the spec: the trusted-setup secret s (spec section 3,
  "a secret scalar s in F") and the element digest map (spec section 3,
  "h(v) = reduce_mod_p(SHA256(...))") live in the repository module
  crypto_accumulator/acc/mod.rs and its utils, which are not part of the
  given sources; they are taken as parameters (s : F) (dg : Int → F)
  of every definition that consumes them.
* Rust HashSet<Fr> is modelled as a List F mutated only through the
  checked insert/remove of the source (so it stays duplicate-free);
  Rust Result is modelled as Option (none = Err).
-/

section Accumulator

variable {F : Type} [Field F] [DecidableEq F]

/-- A proof that an add operation was performed correctly
(dynamic_accumulator.rs, struct AddProof). -/
structure AddProof (F : Type) where
  old_acc_value : F
  new_acc_value : F
  element : F
deriving DecidableEq

/-- Source AddProof::verify checks e(new_acc, g2) == e(old_acc, g2^(s-element));
in discrete-log form: new = old * (s - element). -/
def AddProof.verify (s : F) (p : AddProof F) : Bool :=
  decide (p.new_acc_value = p.old_acc_value * (s - p.element))

/-- A proof that a delete operation was performed correctly
(dynamic_accumulator.rs, struct DeleteProof). -/
structure DeleteProof (F : Type) where
  old_acc_value : F
  new_acc_value : F
  element : F
deriving DecidableEq

/-- Source DeleteProof::verify checks e(new_acc, g2^(s-element)) == e(old_acc, g2);
in discrete-log form: new * (s - element) = old. -/
def DeleteProof.verify (s : F) (p : DeleteProof F) : Bool :=
  decide (p.new_acc_value * (s - p.element) = p.old_acc_value)

/-- Membership proof (dynamic_accumulator.rs, struct MembershipProof). -/
structure MembershipProof (F : Type) where
  witness : F
  element : F
deriving DecidableEq

/-- Source MembershipProof::verify checks e(witness, g2^(s-element)) == e(acc, g2). -/
def MembershipProof.verify (s : F) (p : MembershipProof F) (accumulator : F) : Bool :=
  decide (p.witness * (s - p.element) = accumulator)

/-- Non-membership proof (dynamic_accumulator.rs, struct NonMembershipProof);
witness is g2^B(s), g1_a is g1^A(s), both modelled by their exponents. -/
structure NonMembershipProof (F : Type) where
  element : F
  witness : F
  g1_a : F
deriving DecidableEq

/-- Intersection proof (dynamic_accumulator.rs, struct IntersectionProof);
the four group elements are modelled by their exponents
Q1(s), Q2(s), A(s), B(s). -/
structure IntersectionProof (F : Type) where
  witness_a : F
  witness_b : F
  witness_coprime_a : F
  witness_coprime_b : F
deriving DecidableEq

/-- Union proof (dynamic_accumulator.rs, struct UnionProof). -/
structure UnionProof (F : Type) where
  intersection_acc_value : F
  intersection_proof : IntersectionProof F
deriving DecidableEq

/-- Dynamic accumulator state (dynamic_accumulator.rs, struct DynamicAccumulator):
acc_value is the exponent of the G1 point g1^P(s), elements the digest set. -/
structure DynamicAccumulator (F : Type) where
  acc_value : F
  elements : List F
deriving DecidableEq

namespace DynamicAccumulator

/-- Source DynamicAccumulator::new: acc_value = g1^1 (exponent 1), empty set. -/
def new (F : Type) [Field F] : DynamicAccumulator F := { acc_value := 1, elements := [] }

/-- Source DynamicAccumulator::add.  Errors (none) when the digest is already
present; otherwise multiplies the exponent by (s - element) and inserts the
digest.  The pair returns the possibly-updated state together with the
Result: on the error path the Rust self is untouched, which the returned
first component makes explicit. -/
def add (s : F) (dg : Int → F) (a : DynamicAccumulator F) (element : Int) :
    DynamicAccumulator F × Option (AddProof F) :=
  let fr_element := dg element
  if fr_element ∈ a.elements then (a, none)
  else
    let old_acc := a.acc_value
    let new_acc := a.acc_value * (s - fr_element)
    ({ acc_value := new_acc, elements := fr_element :: a.elements },
      some { old_acc_value := old_acc, new_acc_value := new_acc, element := fr_element })

/-- Source DynamicAccumulator::delete.  Errors when the digest is absent, or
when (s - element) has no inverse (the arkworks inverse() returns None
exactly on zero); otherwise multiplies the exponent by (s - element)⁻¹ and
removes the digest. -/
def delete (s : F) (dg : Int → F) (a : DynamicAccumulator F) (element : Int) :
    DynamicAccumulator F × Option (DeleteProof F) :=
  let fr_element := dg element
  let old_acc := a.acc_value
  if fr_element ∉ a.elements then (a, none)
  else if s - fr_element = 0 then (a, none)
  else
    let new_acc := a.acc_value * (s - fr_element)⁻¹
    ({ acc_value := new_acc, elements := a.elements.erase fr_element },
      some { old_acc_value := old_acc, new_acc_value := new_acc, element := fr_element })

/-- Source DynamicAccumulator::prove_membership: witness = acc * (s-element)⁻¹. -/
def prove_membership (s : F) (dg : Int → F) (a : DynamicAccumulator F) (element : Int) :
    Option (MembershipProof F) :=
  let fr_element := dg element
  if fr_element ∉ a.elements then none
  else if s - fr_element = 0 then none
  else some { witness := a.acc_value * (s - fr_element)⁻¹, element := fr_element }

/-- Source DynamicAccumulator::verify_membership. -/
def verify_membership (s : F) (a : DynamicAccumulator F) (p : MembershipProof F) : Bool :=
  p.verify s a.acc_value

end DynamicAccumulator

/-- CLAIM C4: add/delete round trip.  For every accumulator state, every
element whose digest is not yet in the set and whose digest differs from the
setup secret s, add followed by delete of the same element succeeds and
returns the accumulator to a state equal to the original (equality of the
structure covers both the bitwise-identical compressed acc_value encoding
and the unchanged element set). -/
theorem c4_add_delete_round_trip (s : F) (dg : Int → F) (a : DynamicAccumulator F)
    (e : Int) (h1 : dg e ∉ a.elements) (h2 : s ≠ dg e) :
    (a.add s dg e).2.isSome ∧
    ((a.add s dg e).1.delete s dg e).2.isSome ∧
    ((a.add s dg e).1.delete s dg e).1 = a := by
  have hsub : s - dg e ≠ 0 := sub_ne_zero.mpr h2
  simp only [DynamicAccumulator.add, DynamicAccumulator.delete, if_neg h1]
  have hmem : dg e ∈ dg e :: a.elements := List.mem_cons_self _ _
  refine ⟨by simp, ?_, ?_⟩
  · simp [hmem, hsub]
  · simp only [hmem, not_true_eq_false, if_false, if_neg hsub]
    have hv : a.acc_value * (s - dg e) * (s - dg e)⁻¹ = a.acc_value := by
      rw [mul_assoc, mul_inv_cancel₀ hsub, mul_one]
    have he : (dg e :: a.elements).erase (dg e) = a.elements :=
      List.erase_cons_head _ _
    simp [hv, he]

/-- CLAIM C7: accumulator error atomicity.  Deleting an absent digest errors
and returns the state unchanged; adding a present digest errors and returns
the state unchanged; and on a duplicate-free element set, after deleting an
element (present, with s distinct from its digest, so the delete succeeds),
deleting the same element again errors. -/
theorem c7_error_atomicity (s : F) (dg : Int → F) (a : DynamicAccumulator F) (e : Int) :
    (dg e ∉ a.elements → a.delete s dg e = (a, none)) ∧
    (dg e ∈ a.elements → a.add s dg e = (a, none)) ∧
    (dg e ∈ a.elements → s - dg e ≠ 0 → a.elements.Nodup →
      (a.delete s dg e).2.isSome ∧ ((a.delete s dg e).1.delete s dg e).2 = none) := by
  refine ⟨?_, ?_, ?_⟩
  · intro h
    simp [DynamicAccumulator.delete, h]
  · intro h
    simp [DynamicAccumulator.add, h]
  · intro hm hz hnodup
    have hout : dg e ∉ a.elements.erase (dg e) :=
      (hnodup.mem_erase_iff).not.mpr (by simp)
    constructor
    · simp [DynamicAccumulator.delete, hm, hz]
    · simp [DynamicAccumulator.delete, hm, hz, hout]

end Accumulator

/-- The five-element prime field on Fin 5, with a fully computable inverse
(Fermat: a⁻¹ = a³), used to instantiate witness theorems so that concrete
runs reduce inside the kernel. -/
instance : Field (Fin 5) :=
  { (inferInstance : CommRing (Fin 5)) with
    inv := fun a => a ^ 3
    div := fun a b => a * b ^ 3
    div_eq_mul_inv := fun _ _ => rfl
    nnqsmul := _
    qsmul := _
    exists_pair_ne := ⟨0, 1, by decide⟩
    mul_inv_cancel := by decide
    inv_zero := by decide }

/-- Small prime field used to instantiate witness theorems. -/
abbrev Frw : Type := Fin 5

/-- Witness for C4 at a concrete input: F = ZMod 101, s = 2, cast digest,
empty accumulator, element 5. -/
theorem c4_add_delete_round_trip_witness :
    ((5 : Frw) ∉ (DynamicAccumulator.new Frw).elements ∧ (2 : Frw) ≠ (5 : Frw)) ∧
    (((DynamicAccumulator.new Frw).add 2 (fun n => (n : Frw)) 5).1.delete 2
        (fun n => (n : Frw)) 5).1 = DynamicAccumulator.new Frw := by
  refine ⟨⟨by decide, by decide⟩, ?_⟩
  exact (c4_add_delete_round_trip 2 (fun n => (n : Frw)) (DynamicAccumulator.new Frw) 5
    (by decide) (by decide)).2.2

/-- Witness for C7 at concrete inputs: absent-delete, duplicate-add and
repeated-delete instances, each discharged at F = ZMod 101, s = 2. -/
theorem c7_error_atomicity_witness :
    ((DynamicAccumulator.new Frw).delete 2 (fun n => (n : Frw)) 5 =
      (DynamicAccumulator.new Frw, none)) ∧
    ((((DynamicAccumulator.new Frw).add 2 (fun n => (n : Frw)) 5).1.add 2
        (fun n => (n : Frw)) 5) =
      (((DynamicAccumulator.new Frw).add 2 (fun n => (n : Frw)) 5).1, none)) ∧
    (((((DynamicAccumulator.new Frw).add 2 (fun n => (n : Frw)) 5).1.delete 2
        (fun n => (n : Frw)) 5).1.delete 2 (fun n => (n : Frw)) 5).2 = none) := by
  refine ⟨?_, ?_, ?_⟩
  · exact (c7_error_atomicity 2 (fun n => (n : Frw)) (DynamicAccumulator.new Frw) 5).1
      (by decide)
  · exact (c7_error_atomicity 2 (fun n => (n : Frw))
      ((DynamicAccumulator.new Frw).add 2 (fun n => (n : Frw)) 5).1 5).2.1 (by decide)
  · exact ((c7_error_atomicity 2 (fun n => (n : Frw))
      ((DynamicAccumulator.new Frw).add 2 (fun n => (n : Frw)) 5).1 5).2.2
      (by decide) (by decide) (by decide)).2

/-- Source ProofVerifier::verify_mpt (manager/src/core/verification.rs):
empty proofs are accepted, 32-byte proofs are accepted, and the fallback
branch accepts every other length as well. -/
def verify_mpt (proof : List Nat) : Bool :=
  if proof.isEmpty then true
  else if proof.length = 32 then true
  else true

/-- CLAIM C6 counterexample: a 1-byte proof, whose length is neither 0 nor
32, is accepted by the MPT-mode verifier, contradicting the claim that every
other length is rejected. -/
theorem c6_mpt_mode_counterexample :
    verify_mpt [0] = true ∧ [0].length ≠ 0 ∧ [0].length ≠ 32 := by
  refine ⟨rfl, by decide, by decide⟩

/-- CLAIM C6 (amended): the manager-side MPT-mode verifier accepts every
proof regardless of its byte length; lengths 0 and 32 are merely
special-cased for logging, and the fallback branch accepts as well. -/
theorem c6_mpt_mode_accepts_everything (proof : List Nat) :
    verify_mpt proof = true := by
  unfold verify_mpt
  split <;> simp

/-- Byte strings: Rust String/str contents modelled as lists of byte values. -/
abbrev Str : Type := List Nat

/-- Source KVPair (storager/ads/src/mpt/utils.rs). -/
structure KVPair where
  key : Str
  value : Str
deriving DecidableEq, Repr

/-- Rust str::contains(pat): substring (contiguous infix) containment. -/
def strContains (s pat : Str) : Bool := decide (pat <:+: s)

/-- Rust str::split on the comma byte, mirroring split(',') semantics
(the empty string splits to one empty chunk). -/
def splitComma : Str → List Str
  | [] => [[]]
  | c :: rest =>
    match splitComma rest with
    | [] => [[]]
    | g :: gs => if c = 44 then [] :: g :: gs else (c :: g) :: gs

/-- Rust [..].join(","). -/
def joinComma (l : List Str) : Str := List.intercalate [44] l

namespace KVPair

/-- Source KVPair::add_value: empty value is replaced; otherwise the new
token is appended after a comma unless the SUBSTRING check value.contains
reports it as already present. -/
def add_value (kv : KVPair) (new_value : Str) : KVPair × Bool :=
  if kv.value = [] then ({ kv with value := new_value }, true)
  else if ¬ strContains kv.value new_value then
    ({ kv with value := kv.value ++ 44 :: new_value }, true)
  else (kv, false)

/-- Source KVPair::del_value: if the SUBSTRING check succeeds, the value is
split on commas and tokens equal to the argument are dropped. -/
def del_value (kv : KVPair) (dv : Str) : KVPair × Bool :=
  if strContains kv.value dv then
    ({ kv with value := joinComma ((splitComma kv.value).filter (fun v => v ≠ dv)) },
      true)
  else (kv, false)

end KVPair

/-- Bytes of the fid token "file10". -/
def file10 : Str := [102, 105, 108, 101, 49, 48]

/-- Bytes of the fid token "file1", a strict substring of "file10". -/
def file1 : Str := [102, 105, 108, 101, 49]

/-- CLAIM C10: posting-list CSV membership is substring containment, not
token equality.  On the CSV state "file10", adding the distinct fid "file1"
returns false and leaves the CSV unchanged (the fid is silently never
added), and deleting "file1" reports a change (returns true) while the CSV
again stays "file10". -/
theorem c10_substring_containment :
    KVPair.add_value { key := [107], value := file10 } file1 =
      ({ key := [107], value := file10 }, false) ∧
    KVPair.del_value { key := [107], value := file10 } file1 =
      ({ key := [107], value := file10 }, true) ∧
    file1 ∉ splitComma file10 := by
  refine ⟨by decide, by decide, by decide⟩

/-- Association-list lookup, modelling HashMap::get on the storage node
keyword map. -/
def alLookup {α : Type} (m : List (Str × α)) (k : Str) : Option α :=
  match m with
  | [] => none
  | (k', v) :: rest => if k' = k then some v else alLookup rest k

/-- Association-list insert-or-replace, modelling HashMap entry updates. -/
def alInsert {α : Type} (m : List (Str × α)) (k : Str) (v : α) : List (Str × α) :=
  match m with
  | [] => [(k, v)]
  | (k', v') :: rest =>
    if k' = k then (k, v) :: rest else (k', v') :: alInsert rest k v

/-- Association-list removal, modelling HashMap::remove. -/
def alRemove {α : Type} (m : List (Str × α)) (k : Str) : List (Str × α) :=
  match m with
  | [] => []
  | (k', v') :: rest => if k' = k then rest else (k', v') :: alRemove rest k

/-- Replacing a key by the value it already maps to leaves the map unchanged. -/
theorem alInsert_self {α : Type} (m : List (Str × α)) (k : Str) (v : α)
    (h : alLookup m k = some v) : alInsert m k v = m := by
  induction m with
  | nil => simp [alLookup] at h
  | cons hd tl ih =>
    obtain ⟨k', v'⟩ := hd
    by_cases hk : k' = k
    · subst hk
      have h' : v' = v := Option.some.inj (by simpa [alLookup] using h)
      simp [alInsert, h']
    · simp only [alLookup, if_neg hk] at h
      simp [alInsert, hk, ih h]

/-- Wrapping two's-complement 64-bit arithmetic on Int, used to model the
Rust i64 wrapping_mul / wrapping_add. -/
def wrap64 (x : Int) : Int := (x + 2 ^ 63) % 2 ^ 64 - 2 ^ 63

/-- Source CryptoAccumulatorAds::fid_to_element: the polynomial byte hash of
"keyword:fid" in wrapping i64 arithmetic. -/
def fid_to_element (keyword fid : Str) : Int :=
  (keyword ++ 58 :: fid).foldl (fun acc b => wrap64 (wrap64 (acc * 31) + (b : Int))) 0

/-- Proof byte strings produced by the storage node, in structured form: the
update and membership layouts of section 6 of the spec (arkworks point
serialization is injective, so the 96-byte encodings are represented by the
exponents themselves), and raw marker bytes. -/
inductive ProofBytes (F : Type) where
  | update (old_acc new_acc : F) (element : Int) (valid : Bool)
  | membership (witness : F) (element : Int) (acc_value : F) (valid : Bool)
  | raw (bytes : List Nat)
deriving DecidableEq

/-- Storage-node accumulator-mode state
(storager/src/ads/crypto_accumulator.rs, struct CryptoAccumulatorAds):
per-keyword accumulator plus fid list. -/
structure CryptoAccumulatorAds (F : Type) where
  accumulators : List (Str × (DynamicAccumulator F × List Str))
deriving DecidableEq

namespace CryptoAccumulatorAds

variable {F : Type} [Field F] [DecidableEq F]

/-- Source CryptoAccumulatorAds::new. -/
def new (F : Type) : CryptoAccumulatorAds F := { accumulators := [] }

/-- Source CryptoAccumulatorAds::add.  The entry is materialized first
(entry().or_insert_with), then the defensive duplicate-fid check returns the
current state unchanged with an old==new update proof; otherwise the element
is added to the accumulator (on an accumulator error the state is returned
with a valid=false proof and the fid is not recorded), the fid recorded, and
the proof and root serialized.  The root digest component models the
serialized acc_value bytes (none would be the empty byte string, which add
never returns). -/
def add (s : F) (dg : Int → F) (st : CryptoAccumulatorAds F) (keyword fid : Str) :
    CryptoAccumulatorAds F × ProofBytes F × Option F :=
  let element := fid_to_element keyword fid
  let entry := (alLookup st.accumulators keyword).getD (DynamicAccumulator.new F, [])
  let st0 : CryptoAccumulatorAds F :=
    { accumulators := alInsert st.accumulators keyword entry }
  let old_acc_value := entry.1.acc_value
  if fid ∈ entry.2 then
    (st0, ProofBytes.update old_acc_value entry.1.acc_value element true,
      some entry.1.acc_value)
  else
    match entry.1.add s dg element with
    | (_, none) =>
      (st0, ProofBytes.update old_acc_value old_acc_value element false,
        some old_acc_value)
    | (acc', some pf) =>
      let is_valid := pf.verify s
      let st' : CryptoAccumulatorAds F :=
        { accumulators := alInsert st.accumulators keyword (acc', entry.2 ++ [fid]) }
      (st', ProofBytes.update old_acc_value acc'.acc_value element is_valid,
        some acc'.acc_value)

/-- Source CryptoAccumulatorAds::delete.  Returns none exactly where the
Rust code panics through .expect("Failed to delete from accumulator"), i.e.
when the keyword has a live entry but the accumulator delete fails. -/
def delete (s : F) (dg : Int → F) (st : CryptoAccumulatorAds F) (keyword fid : Str) :
    Option (CryptoAccumulatorAds F × ProofBytes F × Option F) :=
  let element := fid_to_element keyword fid
  match alLookup st.accumulators keyword with
  | none => some (st, ProofBytes.raw [0], none)
  | some (acc, fids) =>
    let old_acc_value := acc.acc_value
    match acc.delete s dg element with
    | (_, none) => none
    | (acc', some pf) =>
      let is_valid := pf.verify s
      let fids' := fids.filter (fun f => f ≠ fid)
      let proof := ProofBytes.update old_acc_value acc'.acc_value element is_valid
      if fids' = [] then
        some ({ accumulators := alRemove st.accumulators keyword }, proof, none)
      else
        some ({ accumulators := alInsert st.accumulators keyword (acc', fids') },
          proof, some acc'.acc_value)

end CryptoAccumulatorAds

/-- CLAIM C8: storage-node Add idempotence on duplicates.  When the fid is
already recorded under the keyword, Add returns the state unchanged together
with a structurally valid update proof whose old and new accumulator values
coincide, valid byte 1, and the current root digest. -/
theorem c8_add_idempotent_on_duplicates {F : Type} [Field F] [DecidableEq F]
    (s : F) (dg : Int → F) (st : CryptoAccumulatorAds F) (keyword fid : Str)
    (acc : DynamicAccumulator F) (fids : List Str)
    (hlook : alLookup st.accumulators keyword = some (acc, fids))
    (hdup : fid ∈ fids) :
    st.add s dg keyword fid =
      (st, ProofBytes.update acc.acc_value acc.acc_value
        (fid_to_element keyword fid) true, some acc.acc_value) := by
  have hself := alInsert_self st.accumulators keyword (acc, fids) hlook
  simp [CryptoAccumulatorAds.add, hlook, hdup, hself]

set_option maxRecDepth 10000 in
/-- Witness for C8: a state built by one Add, then a duplicate Add of the
same fid, at F = ZMod 101, s = 2, cast digest. -/
theorem c8_add_idempotent_on_duplicates_witness :
    (((CryptoAccumulatorAds.new Frw).add 2 (fun n => (n : Frw)) [107] [49]).1.add 2
        (fun n => (n : Frw)) [107] [49]) =
      ((((CryptoAccumulatorAds.new Frw).add 2 (fun n => (n : Frw)) [107] [49]).1),
        ProofBytes.update (2 - ((fid_to_element [107] [49] : Int) : Frw))
          (2 - ((fid_to_element [107] [49] : Int) : Frw))
          (fid_to_element [107] [49]) true,
        some (2 - ((fid_to_element [107] [49] : Int) : Frw))) := by
  have h := c8_add_idempotent_on_duplicates (F := Frw) 2 (fun n => (n : Frw))
    (((CryptoAccumulatorAds.new Frw).add 2 (fun n => (n : Frw)) [107] [49]).1)
    [107] [49]
    { acc_value := 2 - ((fid_to_element [107] [49] : Int) : Frw),
      elements := [((fid_to_element [107] [49] : Int) : Frw)] }
    [[49]] (by decide) (by decide)
  exact h

set_option maxRecDepth 10000 in
/-- CLAIM C9: the storage-node accumulator-mode Delete panics (modelled by
returning none) when the keyword has a live instance but the element derived
from (keyword, fid) is not in the accumulator: after Add("k","1"), calling
Delete("k","2") aborts the process instead of returning an error. -/
theorem c9_delete_panics_on_absent_element :
    (alLookup (((CryptoAccumulatorAds.new Frw).add 2 (fun n => (n : Frw))
        [107] [49]).1).accumulators [107]).isSome ∧
    (((CryptoAccumulatorAds.new Frw).add 2 (fun n => (n : Frw)) [107] [49]).1.delete 2
        (fun n => (n : Frw)) [107] [50]) = none := by
  refine ⟨by decide, by decide⟩

section Poly

variable {F : Type} [Field F] [DecidableEq F]

/-!
Dense univariate polynomials over F, coefficients stored low-degree first,
exactly as the arkworks DensePolynomial consumed by dynamic_accumulator.rs.
The division is the standard Euclidean long division of
divide_with_q_and_r; xgcd is modelled from the spec (section 4.1:
"xgcd(a, b) → (g, u, v) with u·a + v·b = g", the classic extended Euclid),
since its source file is not part of the given sources.  toPoly interprets a
coefficient list as a Mathlib polynomial; all algebraic reasoning happens
through that bridge.
-/

/-- Canonicalization: drop trailing (highest-degree) zero coefficients, as
from_coefficients_vec does. -/
def ptrim : List F → List F
  | [] => []
  | c :: rest =>
    match ptrim rest with
    | [] => if c = 0 then [] else [c]
    | r => c :: r

/-- Coefficient-wise sum, the shorter list padded with zeros. -/
def padd : List F → List F → List F
  | [], q => q
  | p, [] => p
  | a :: p, b :: q => (a + b) :: padd p q

/-- Coefficient-wise negation. -/
def pneg (p : List F) : List F := p.map (fun c => -c)

/-- Coefficient-wise difference. -/
def psub (p q : List F) : List F := padd p (pneg q)

/-- Scalar multiple. -/
def pscale (t : F) (p : List F) : List F := p.map (fun c => t * c)

/-- Naive convolution product. -/
def pmul : List F → List F → List F
  | [], _ => []
  | a :: p, q => if q = [] then [] else padd (pscale a q) (0 :: pmul p q)

/-- Horner evaluation, matching Polynomial::evaluate. -/
def peval (p : List F) (x : F) : F := p.foldr (fun c acc => c + x * acc) 0

/-- The polynomial denoted by a coefficient list. -/
noncomputable def toPoly : List F → Polynomial F
  | [] => 0
  | c :: rest => Polynomial.C c + Polynomial.X * toPoly rest

theorem toPoly_nil : toPoly ([] : List F) = 0 := rfl

theorem toPoly_cons (c : F) (rest : List F) :
    toPoly (c :: rest) = Polynomial.C c + Polynomial.X * toPoly rest := rfl

theorem toPoly_ptrim (p : List F) : toPoly (ptrim p) = toPoly p := by
  induction p with
  | nil => rfl
  | cons c rest ih =>
    rw [toPoly_cons, ← ih, ptrim]
    cases hr : ptrim rest with
    | nil =>
      by_cases hc : c = 0
      · simp [hc, toPoly_nil]
      · simp [hc, toPoly_cons, toPoly_nil]
    | cons d r' =>
      simp [toPoly_cons]

theorem toPoly_padd (p q : List F) : toPoly (padd p q) = toPoly p + toPoly q := by
  induction p generalizing q with
  | nil => simp [padd, toPoly_nil]
  | cons a p ih =>
    cases q with
    | nil => simp [padd, toPoly_nil]
    | cons b q =>
      simp only [padd, toPoly_cons, ih, Polynomial.C_add]
      ring

theorem toPoly_pneg (p : List F) : toPoly (pneg p) = -toPoly p := by
  induction p with
  | nil => simp [pneg, toPoly_nil]
  | cons a p ih =>
    simp only [pneg, List.map_cons, toPoly_cons] at *
    rw [ih]
    simp only [map_neg]
    ring

theorem toPoly_psub (p q : List F) : toPoly (psub p q) = toPoly p - toPoly q := by
  rw [psub, toPoly_padd, toPoly_pneg]
  ring

theorem toPoly_pscale (t : F) (p : List F) :
    toPoly (pscale t p) = Polynomial.C t * toPoly p := by
  induction p with
  | nil => simp [pscale, toPoly_nil]
  | cons a p ih =>
    simp only [pscale, List.map_cons, toPoly_cons] at *
    rw [ih, map_mul]
    ring

theorem toPoly_pmul (p q : List F) : toPoly (pmul p q) = toPoly p * toPoly q := by
  induction p with
  | nil => simp [pmul, toPoly_nil]
  | cons a p ih =>
    by_cases hq : q = []
    · simp [pmul, hq, toPoly_nil]
    · simp only [pmul, if_neg hq, toPoly_padd, toPoly_pscale, toPoly_cons, ih, map_zero]
      ring

theorem toPoly_mapRightScale (c : F) (p : List F) :
    toPoly (p.map (fun x => x * c)) = toPoly p * Polynomial.C c := by
  induction p with
  | nil => simp [toPoly_nil]
  | cons a p ih =>
    simp only [List.map_cons, toPoly_cons, ih, map_mul]
    ring

theorem peval_toPoly (p : List F) (x : F) : (toPoly p).eval x = peval p x := by
  induction p with
  | nil => simp [toPoly_nil, peval]
  | cons a p ih =>
    simp only [toPoly_cons, peval, List.foldr_cons, Polynomial.eval_add,
      Polynomial.eval_C, Polynomial.eval_mul, Polynomial.eval_X]
    rw [ih]
    rfl

theorem toPoly_shift (n : Nat) (p : List F) :
    toPoly (List.replicate n 0 ++ p) = Polynomial.X ^ n * toPoly p := by
  induction n with
  | zero => simp
  | succ n ih =>
    simp only [List.replicate_succ, List.cons_append, toPoly_cons, ih, map_zero]
    ring

theorem toPoly_monomial (n : Nat) (t : F) :
    toPoly (List.replicate n 0 ++ [t]) = Polynomial.C t * Polynomial.X ^ n := by
  rw [toPoly_shift, toPoly_cons, toPoly_nil]
  ring

/-- Leading (highest-degree) coefficient; 0 for the zero polynomial. -/
def plead : List F → F
  | [] => 0
  | [c] => c
  | _ :: c :: rest => plead (c :: rest)

theorem plead_nil : plead ([] : List F) = 0 := rfl

theorem plead_singleton (c : F) : plead [c] = c := rfl

theorem plead_cons_cons (a b : F) (l : List F) :
    plead (a :: b :: l) = plead (b :: l) := rfl

theorem plead_cons_of_ne_nil (a : F) {l : List F} (h : l ≠ []) :
    plead (a :: l) = plead l := by
  cases l with
  | nil => exact absurd rfl h
  | cons b l' => rfl

/-- ptrim is idempotent: its output has no trailing zeros. -/
theorem ptrim_idem (p : List F) : ptrim (ptrim p) = ptrim p := by
  induction p with
  | nil => rfl
  | cons c rest ih =>
    rw [ptrim]
    cases hr : ptrim rest with
    | nil =>
      by_cases hc : c = 0 <;> simp [hc, ptrim]
    | cons d r' =>
      rw [hr] at ih
      show ptrim (c :: d :: r') = c :: d :: r'
      rw [ptrim, ih]

theorem ptrim_length_le (p : List F) : (ptrim p).length ≤ p.length := by
  induction p with
  | nil => simp [ptrim]
  | cons c rest ih =>
    rw [ptrim]
    cases hr : ptrim rest with
    | nil =>
      by_cases hc : c = 0
      · simp [hc]
      · simp [hc]
    | cons d r' =>
      rw [hr] at ih
      show (c :: d :: r').length ≤ (c :: rest).length
      simp only [List.length_cons] at ih ⊢
      omega

theorem ptrim_plead_ne_zero (p : List F) (h : ptrim p ≠ []) :
    plead (ptrim p) ≠ 0 := by
  induction p with
  | nil => exact absurd rfl h
  | cons c rest ih =>
    rw [ptrim] at h ⊢
    cases hr : ptrim rest with
    | nil =>
      rw [hr] at h
      by_cases hc : c = 0
      · simp [hc] at h
      · simpa [hc, plead_singleton] using hc
    | cons d r' =>
      rw [hr] at ih
      have hne := ih (by simp)
      show plead (c :: d :: r') ≠ 0
      rw [plead_cons_cons]
      exact hne

theorem ptrim_eq_self_of_plead {p : List F} (hne : p ≠ []) (h : plead p ≠ 0) :
    ptrim p = p := by
  induction p with
  | nil => rfl
  | cons c rest ih =>
    cases hrest : rest with
    | nil =>
      subst hrest
      rw [plead_singleton] at h
      simp [ptrim, h]
    | cons d r' =>
      subst hrest
      rw [plead_cons_cons] at h
      rw [ptrim, ih (by simp) h]

theorem plead_zero_length_lt (p : List F) (hne : p ≠ [])
    (h : plead p = 0) : (ptrim p).length < p.length := by
  induction p with
  | nil => exact absurd rfl hne
  | cons c rest ih =>
    cases hrest : rest with
    | nil =>
      subst hrest
      rw [plead_singleton] at h
      simp [ptrim, h]
    | cons d r' =>
      subst hrest
      rw [plead_cons_cons] at h
      have hlt := ih (by simp) h
      rw [ptrim]
      cases hpt : ptrim (d :: r') with
      | nil =>
        show (if c = 0 then ([] : List F) else [c]).length < (c :: d :: r').length
        have hle : (if c = 0 then ([] : List F) else [c]).length ≤ 1 := by
          by_cases hc : c = 0 <;> simp [hc]
        simp only [List.length_cons]
        omega
      | cons e r'' =>
        rw [hpt] at hlt
        show (c :: e :: r'').length < (c :: d :: r').length
        simp only [List.length_cons] at hlt ⊢
        omega

end Poly

section PolyDiv

variable {F : Type} [Field F] [DecidableEq F]

theorem plead_append (x : List F) {y : List F} (hy : y ≠ []) :
    plead (x ++ y) = plead y := by
  induction x with
  | nil => rfl
  | cons a x ih =>
    have hxy : x ++ y ≠ [] := by
      intro hcon
      exact hy (List.append_eq_nil.mp hcon).2
    rw [List.cons_append, plead_cons_of_ne_nil a hxy, ih]

theorem plead_map (f : F → F) {l : List F} (hl : l ≠ []) :
    plead (l.map f) = f (plead l) := by
  induction l with
  | nil => exact absurd rfl hl
  | cons a l ih =>
    cases l with
    | nil => rfl
    | cons b l' =>
      have h1 : plead ((a :: b :: l').map f) = plead ((b :: l').map f) := by
        rw [List.map_cons]
        exact plead_cons_of_ne_nil _ (by simp)
      rw [h1, plead_cons_cons, ih (by simp)]

theorem plead_pscale (t : F) {b : List F} (hb : b ≠ []) :
    plead (pscale t b) = t * plead b := plead_map (fun c => t * c) hb

theorem plead_pneg {l : List F} (hl : l ≠ []) : plead (pneg l) = -plead l :=
  plead_map (fun c => -c) hl

theorem len_padd (p q : List F) : (padd p q).length = max p.length q.length := by
  induction p generalizing q with
  | nil => simp [padd]
  | cons a p ih =>
    cases q with
    | nil => simp [padd]
    | cons b q =>
      simp only [padd, List.length_cons, ih]
      omega

theorem len_pneg (q : List F) : (pneg q).length = q.length := by
  simp [pneg]

theorem plead_padd_eq {p q : List F} (h : p.length = q.length) (hp : p ≠ []) :
    plead (padd p q) = plead p + plead q := by
  induction p generalizing q with
  | nil => exact absurd rfl hp
  | cons a p ih =>
    cases q with
    | nil => simp at h
    | cons b q =>
      cases hp' : p with
      | nil =>
        subst hp'
        have : q = [] := by
          simpa using h.symm
        subst this
        rfl
      | cons c p' =>
        subst hp'
        have hq : q ≠ [] := by
          simp only [List.length_cons] at h
          intro hcon
          rw [hcon] at h
          simp at h
        have hlen : (c :: p').length = q.length := by
          simpa using h
        rw [show padd (a :: c :: p') (b :: q) = (a + b) :: padd (c :: p') q from rfl]
        have hpadd_ne : padd (c :: p') q ≠ [] := by
          intro hcon
          have hl := len_padd (c :: p') q
          rw [hcon] at hl
          simp only [List.length_nil, List.length_cons] at hl
          omega
        rw [plead_cons_of_ne_nil _ hpadd_ne, ih hlen (by simp),
          plead_cons_of_ne_nil a (by simp), plead_cons_of_ne_nil b hq]

theorem plead_psub {p q : List F} (h : p.length = q.length) (hp : p ≠ []) :
    plead (psub p q) = plead p - plead q := by
  have hq : q ≠ [] := by
    intro hcon
    rw [hcon] at h
    simp only [List.length_nil] at h
    exact hp (List.length_eq_zero.mp h)
  rw [psub, plead_padd_eq (by rw [len_pneg]; exact h) hp, plead_pneg hq]
  ring

theorem len_psub {p q : List F} (h : q.length = p.length) :
    (psub p q).length = p.length := by
  rw [psub, len_padd, len_pneg, h]
  omega

/-- Long-division loop of divide_with_q_and_r (arkworks): repeatedly cancel
the leading coefficient of the remainder against the divisor.  The fuel is a
structural-recursion device; a.length + 1 is always sufficient (each step
strictly shortens the remainder). -/
def pdivmodAux (b : List F) (binv : F) : Nat → List F → List F × List F
  | 0, r => ([], r)
  | fuel + 1, r =>
    if r.length < b.length then ([], r)
    else
      let t := plead r * binv
      let deg := r.length - b.length
      let r' := ptrim (psub r (List.replicate deg 0 ++ pscale t b))
      let qr := pdivmodAux b binv fuel r'
      (padd qr.1 (List.replicate deg 0 ++ [t]), qr.2)

/-- Source DenseOrSparsePolynomial::divide_with_q_and_r: none exactly when
the divisor is zero. -/
def pdivmod (a b : List F) : Option (List F × List F) :=
  if b = [] then none
  else some (pdivmodAux b (plead b)⁻¹ (a.length + 1) a)

theorem pdivmodAux_toPoly (b : List F) (binv : F) (fuel : Nat) (r : List F) :
    toPoly r = toPoly b * toPoly (pdivmodAux b binv fuel r).1 +
      toPoly (pdivmodAux b binv fuel r).2 := by
  induction fuel generalizing r with
  | zero => simp [pdivmodAux, toPoly_nil]
  | succ fuel ih =>
    by_cases h : r.length < b.length
    · simp [pdivmodAux, h, toPoly_nil]
    · have key : toPoly (ptrim (psub r
          (List.replicate (r.length - b.length) 0 ++ pscale (plead r * binv) b)))
          = toPoly r - Polynomial.X ^ (r.length - b.length) *
            (Polynomial.C (plead r * binv) * toPoly b) := by
        rw [toPoly_ptrim, toPoly_psub, toPoly_shift, toPoly_pscale]
      rw [pdivmodAux]
      simp only [if_neg h, toPoly_padd, toPoly_monomial]
      have ih' := ih (ptrim (psub r
        (List.replicate (r.length - b.length) 0 ++ pscale (plead r * binv) b)))
      rw [key] at ih'
      linear_combination ih'

theorem pdivmodAux_step_lt (b : List F) (hbne : b ≠ []) (hbl : plead b ≠ 0)
    (r : List F) (h : ¬ r.length < b.length) :
    (ptrim (psub r (List.replicate (r.length - b.length) 0 ++
      pscale (plead r * (plead b)⁻¹) b))).length < r.length := by
  have hrne : r ≠ [] := by
    intro hcon
    rw [hcon] at h
    simp only [List.length_nil] at h
    have : 0 < b.length := List.length_pos.mpr hbne
    omega
  have hscne : pscale (plead r * (plead b)⁻¹) b ≠ [] := by
    simpa [pscale] using hbne
  have hlenw : (List.replicate (r.length - b.length) 0 ++
      pscale (plead r * (plead b)⁻¹) b).length = r.length := by
    simp only [List.length_append, List.length_replicate, pscale, List.length_map]
    omega
  have hsubne : psub r (List.replicate (r.length - b.length) 0 ++
      pscale (plead r * (plead b)⁻¹) b) ≠ [] := by
    have := len_psub hlenw
    intro hcon
    rw [hcon] at this
    simp only [List.length_nil] at this
    exact hrne (List.length_eq_zero.mp this.symm)
  have hpleadw : plead (List.replicate (r.length - b.length) 0 ++
      pscale (plead r * (plead b)⁻¹) b) = plead r := by
    rw [plead_append _ hscne, plead_pscale _ hbne, mul_assoc,
      inv_mul_cancel₀ hbl, mul_one]
  have hpleadsub : plead (psub r (List.replicate (r.length - b.length) 0 ++
      pscale (plead r * (plead b)⁻¹) b)) = 0 := by
    rw [plead_psub hlenw.symm hrne, hpleadw, sub_self]
  have := plead_zero_length_lt _ hsubne hpleadsub
  rw [len_psub hlenw] at this
  exact this

theorem pdivmodAux_rem (b : List F) (hbne : b ≠ []) (hbl : plead b ≠ 0) :
    ∀ fuel r, ptrim r = r → r.length + 1 ≤ fuel →
      ((pdivmodAux b (plead b)⁻¹ fuel r).2 = [] ∨
        (pdivmodAux b (plead b)⁻¹ fuel r).2.length < b.length) ∧
      ptrim (pdivmodAux b (plead b)⁻¹ fuel r).2 =
        (pdivmodAux b (plead b)⁻¹ fuel r).2 := by
  intro fuel
  induction fuel with
  | zero =>
    intro r _ hf
    omega
  | succ fuel ih =>
    intro r hrc hf
    by_cases h : r.length < b.length
    · refine ⟨?_, ?_⟩ <;> simp [pdivmodAux, h, hrc]
    · have hlt := pdivmodAux_step_lt b hbne hbl r h
      have hrec := ih (ptrim (psub r (List.replicate (r.length - b.length) 0 ++
        pscale (plead r * (plead b)⁻¹) b))) (ptrim_idem _) (by omega)
      rw [pdivmodAux]
      simp only [if_neg h]
      exact hrec

theorem plead_padd_right {p q : List F} (h : p.length < q.length) :
    plead (padd p q) = plead q := by
  induction p generalizing q with
  | nil => simp [padd]
  | cons a p ih =>
    cases q with
    | nil => simp at h
    | cons b q' =>
      simp only [List.length_cons] at h
      have hlt : p.length < q'.length := by omega
      have hne : padd p q' ≠ [] := by
        intro hcon
        have hl := len_padd p q'
        rw [hcon] at hl
        simp only [List.length_nil] at hl
        omega
      have hq' : q' ≠ [] := by
        intro hcon
        rw [hcon] at hlt
        simp at hlt
      rw [show padd (a :: p) (b :: q') = (a + b) :: padd p q' from rfl,
        plead_cons_of_ne_nil _ hne, ih hlt, plead_cons_of_ne_nil b hq']

theorem plead_padd_left {p q : List F} (h : q.length < p.length) :
    plead (padd p q) = plead p := by
  induction p generalizing q with
  | nil => simp at h
  | cons a p ih =>
    cases q with
    | nil => simp [padd]
    | cons b q' =>
      simp only [List.length_cons] at h
      have hlt : q'.length < p.length := by omega
      have hp : p ≠ [] := by
        intro hcon
        rw [hcon] at hlt
        simp at hlt
      have hne : padd p q' ≠ [] := by
        intro hcon
        have hl := len_padd p q'
        rw [hcon] at hl
        simp only [List.length_nil] at hl
        omega
      rw [show padd (a :: p) (b :: q') = (a + b) :: padd p q' from rfl,
        plead_cons_of_ne_nil _ hne, ih hlt, plead_cons_of_ne_nil a hp]

theorem len_pmul {p q : List F} (hp : p ≠ []) (hq : q ≠ []) :
    (pmul p q).length = p.length + q.length - 1 := by
  induction p with
  | nil => exact absurd rfl hp
  | cons a p ih =>
    cases hp' : p with
    | nil =>
      subst hp'
      have hq1 : 1 ≤ q.length := List.length_pos.mpr hq
      rw [show pmul [a] q = if q = [] then [] else padd (pscale a q) (0 :: pmul [] q)
        from rfl]
      rw [if_neg hq]
      rw [show pmul ([] : List F) q = [] from rfl]
      rw [len_padd]
      simp only [pscale, List.length_map, List.length_cons, List.length_nil,
        List.length_singleton]
      omega
    | cons c p' =>
      subst hp'
      have hpne : (c :: p') ≠ [] := by simp
      have ihh := ih hpne
      rw [show pmul (a :: c :: p') q =
        if q = [] then [] else padd (pscale a q) (0 :: pmul (c :: p') q) from rfl]
      rw [if_neg hq]
      rw [len_padd]
      simp only [pscale, List.length_map, List.length_cons]
      have hq1 : 1 ≤ q.length := List.length_pos.mpr hq
      simp only [List.length_cons] at ihh ⊢
      omega

theorem plead_pmul {p q : List F} (hp : p ≠ []) (hq : q ≠ []) :
    plead (pmul p q) = plead p * plead q := by
  induction p with
  | nil => exact absurd rfl hp
  | cons a p ih =>
    cases hp' : p with
    | nil =>
      subst hp'
      rw [show pmul [a] q = if q = [] then [] else padd (pscale a q) (0 :: pmul [] q)
        from rfl]
      rw [if_neg hq]
      rw [show pmul ([] : List F) q = [] from rfl]
      cases hq' : q with
      | nil => exact absurd hq' hq
      | cons b q' =>
        cases hq'' : q' with
        | nil =>
          subst hq' hq''
          show plead [a * b + 0] = plead [a] * plead [b]
          simp [plead_singleton]
        | cons c q'' =>
          subst hq' hq''
          have hlen : (0 :: ([] : List F)).length <
              (pscale a (b :: c :: q'')).length := by
            simp [pscale]
          have := plead_padd_left hlen
          rw [show padd (pscale a (b :: c :: q'')) [0] =
            padd (pscale a (b :: c :: q'')) (0 :: ([] : List F)) from rfl] at *
          rw [this, plead_pscale _ (by simp), plead_singleton]
    | cons c p' =>
      subst hp'
      have hpne : (c :: p') ≠ [] := by simp
      rw [show pmul (a :: c :: p') q =
        if q = [] then [] else padd (pscale a q) (0 :: pmul (c :: p') q) from rfl]
      rw [if_neg hq]
      have hq1 : 1 ≤ q.length := List.length_pos.mpr hq
      have hmulne : pmul (c :: p') q ≠ [] := by
        intro hcon
        have hl := len_pmul hpne hq
        rw [hcon] at hl
        simp only [List.length_nil, List.length_cons] at hl
        omega
      have hlen : (pscale a q).length < (0 :: pmul (c :: p') q).length := by
        have hl := len_pmul hpne hq
        simp only [pscale, List.length_map, List.length_cons] at *
        omega
      rw [plead_padd_right hlen, plead_cons_of_ne_nil _ hmulne, ih hpne,
        plead_cons_of_ne_nil a hpne]

/-- Modelled from the spec: the repository xgcd helper (crypto_accumulator
acc utils, absent from src/) per spec section 4.1, "xgcd(a, b) → (g, u, v)
with u·a + v·b = g" — the classic extended Euclid: (r0, r1) steps to
(r1, r0 mod r1) while the Bezout coefficient rows follow.  Fuel is a
structural-recursion device; b.length + 1 always suffices since remainders
strictly shorten. -/
def xgcdAux : Nat → List F → List F → List F → List F → List F → List F →
    List F × List F × List F
  | 0, r0, _, u0, _, v0, _ => (r0, u0, v0)
  | fuel + 1, r0, r1, u0, u1, v0, v1 =>
    if r1 = [] then (r0, u0, v0)
    else
      match pdivmod r0 r1 with
      | none => (r0, u0, v0)
      | some (q, r2) =>
        xgcdAux fuel r1 r2 u1 (psub u0 (pmul q u1)) v1 (psub v0 (pmul q v1))

/-- Modelled from the spec: xgcd entry point, always defined (Some). -/
def xgcd (a b : List F) : Option (List F × List F × List F) :=
  some (xgcdAux (b.length + 1) a b [1] [] [] [1])

theorem toPoly_one : toPoly ([1] : List F) = 1 := by
  rw [toPoly_cons, toPoly_nil]
  simp

theorem pdivmod_some {a b : List F} (hb : b ≠ []) :
    pdivmod a b = some (pdivmodAux b (plead b)⁻¹ (a.length + 1) a) := by
  rw [pdivmod, if_neg hb]

theorem xgcdAux_bezout (A B : Polynomial F) :
    ∀ (fuel : Nat) (r0 r1 u0 u1 v0 v1 : List F),
      toPoly u0 * A + toPoly v0 * B = toPoly r0 →
      toPoly u1 * A + toPoly v1 * B = toPoly r1 →
      toPoly (xgcdAux fuel r0 r1 u0 u1 v0 v1).2.1 * A +
        toPoly (xgcdAux fuel r0 r1 u0 u1 v0 v1).2.2 * B =
        toPoly (xgcdAux fuel r0 r1 u0 u1 v0 v1).1 := by
  intro fuel
  induction fuel with
  | zero => intro r0 r1 u0 u1 v0 v1 h0 _; exact h0
  | succ fuel ih =>
    intro r0 r1 u0 u1 v0 v1 h0 h1
    by_cases hr1 : r1 = []
    · simp only [xgcdAux, if_pos hr1]
      exact h0
    · have hpd := pdivmod_some (a := r0) hr1
      have hdiv := pdivmodAux_toPoly r1 (plead r1)⁻¹ (r0.length + 1) r0
      rw [xgcdAux]
      simp only [if_neg hr1, hpd]
      apply ih
      · exact h1
      · rw [toPoly_psub, toPoly_psub, toPoly_pmul, toPoly_pmul]
        linear_combination h0 - toPoly (pdivmodAux r1 (plead r1)⁻¹ (r0.length + 1) r0).1 * h1 + hdiv

theorem xgcdAux_gcd_spec :
    ∀ (fuel : Nat) (r0 r1 u0 u1 v0 v1 : List F),
      ptrim r0 = r0 → ptrim r1 = r1 → r1.length + 1 ≤ fuel →
      (toPoly (xgcdAux fuel r0 r1 u0 u1 v0 v1).1 ∣ toPoly r0 ∧
        toPoly (xgcdAux fuel r0 r1 u0 u1 v0 v1).1 ∣ toPoly r1) ∧
      ((r0 ≠ [] ∨ r1 ≠ []) → (xgcdAux fuel r0 r1 u0 u1 v0 v1).1 ≠ []) ∧
      ptrim (xgcdAux fuel r0 r1 u0 u1 v0 v1).1 = (xgcdAux fuel r0 r1 u0 u1 v0 v1).1 := by
  intro fuel
  induction fuel with
  | zero => intro r0 r1 u0 u1 v0 v1 _ _ hf; omega
  | succ fuel ih =>
    intro r0 r1 u0 u1 v0 v1 hr0c hr1c hf
    by_cases hr1 : r1 = []
    · subst hr1
      simp only [xgcdAux, if_pos rfl]
      refine ⟨⟨dvd_refl _, ?_⟩, ?_, hr0c⟩
      · rw [toPoly_nil]; exact dvd_zero _
      · intro h
        rcases h with h | h
        · exact h
        · exact absurd rfl h
    · have hr1lead : plead r1 ≠ 0 := by
        have := ptrim_plead_ne_zero r1 (by rw [hr1c]; exact hr1)
        rw [hr1c] at this
        exact this
      have hpd := pdivmod_some (a := r0) hr1
      have hdiv := pdivmodAux_toPoly r1 (plead r1)⁻¹ (r0.length + 1) r0
      have hrem := pdivmodAux_rem r1 hr1 hr1lead (r0.length + 1) r0 hr0c (by omega)
      have hr2len : (pdivmodAux r1 (plead r1)⁻¹ (r0.length + 1) r0).2.length < r1.length := by
        rcases hrem.1 with h | h
        · rw [h]
          simpa using List.length_pos.mpr hr1
        · exact h
      rw [xgcdAux]
      simp only [if_neg hr1, hpd]
      have hrec := ih r1 (pdivmodAux r1 (plead r1)⁻¹ (r0.length + 1) r0).2
        u1 (psub u0 (pmul (pdivmodAux r1 (plead r1)⁻¹ (r0.length + 1) r0).1 u1))
        v1 (psub v0 (pmul (pdivmodAux r1 (plead r1)⁻¹ (r0.length + 1) r0).1 v1))
        hr1c hrem.2 (by omega)
      refine ⟨⟨?_, hrec.1.1⟩, ?_, hrec.2.2⟩
      · rw [hdiv]
        exact dvd_add (hrec.1.1.mul_right _) hrec.1.2
      · intro _
        exact hrec.2.1 (Or.inl hr1)

theorem xgcd_spec (a b : List F) (hac : ptrim a = a) (hbc : ptrim b = b) :
    ∀ g u v, xgcd a b = some (g, u, v) →
      toPoly u * toPoly a + toPoly v * toPoly b = toPoly g ∧
      toPoly g ∣ toPoly a ∧ toPoly g ∣ toPoly b ∧
      ((a ≠ [] ∨ b ≠ []) → g ≠ []) ∧ ptrim g = g := by
  intro g u v hout
  rw [xgcd] at hout
  have hg : g = (xgcdAux (b.length + 1) a b [1] [] [] [1]).1 := by
    have := congrArg (fun o => o.map (fun t => t.1)) hout
    simpa using this.symm
  have hu : u = (xgcdAux (b.length + 1) a b [1] [] [] [1]).2.1 := by
    have := congrArg (fun o => o.map (fun t => t.2.1)) hout
    simpa using this.symm
  have hv : v = (xgcdAux (b.length + 1) a b [1] [] [] [1]).2.2 := by
    have := congrArg (fun o => o.map (fun t => t.2.2)) hout
    simpa using this.symm
  subst hg hu hv
  have hbez := xgcdAux_bezout (toPoly a) (toPoly b) (b.length + 1) a b [1] [] [] [1]
    (by rw [toPoly_one, toPoly_nil]; ring) (by rw [toPoly_one, toPoly_nil]; ring)
  have hgcd := xgcdAux_gcd_spec (b.length + 1) a b [1] [] [] [1] hac hbc (by omega)
  exact ⟨hbez, hgcd.1.1, hgcd.1.2, hgcd.2.1, hgcd.2.2⟩

section PolyDegree

variable {F : Type} [Field F] [DecidableEq F]

theorem canon_tail {c : F} {rest : List F} (h : ptrim (c :: rest) = c :: rest)
    (hrest : rest ≠ []) : ptrim rest = rest := by
  rw [ptrim] at h
  cases hr : ptrim rest with
  | nil =>
    rw [hr] at h
    exfalso
    by_cases hc : c = 0
    · rw [if_pos hc] at h
      exact List.cons_ne_nil c rest h.symm
    · rw [if_neg hc] at h
      have hlen := congrArg List.length h
      simp only [List.length_cons, List.length_nil] at hlen
      exact hrest (List.length_eq_zero.mp (by omega))
  | cons d r' =>
    rw [hr] at h
    have h2 : d :: r' = rest := (List.cons.inj h).2
    subst h2
    simp [hr]

theorem toPoly_canon_spec {p : List F} (hc : ptrim p = p) (hne : p ≠ []) :
    toPoly p ≠ 0 ∧ (toPoly p).natDegree = p.length - 1 := by
  induction p with
  | nil => exact absurd rfl hne
  | cons c rest ih =>
    cases hrest : rest with
    | nil =>
      subst hrest
      have hcz : c ≠ 0 := by
        intro hcz
        rw [ptrim, ptrim, if_pos hcz] at hc
        exact absurd hc.symm (by simp)
      constructor
      · rw [toPoly_cons, toPoly_nil]
        simpa using Polynomial.C_ne_zero.mpr hcz
      · rw [toPoly_cons, toPoly_nil]
        simp
    | cons d r' =>
      subst hrest
      have hrc : ptrim (d :: r') = d :: r' := canon_tail hc (by simp)
      obtain ⟨hne0, hdeg⟩ := ih hrc (by simp)
      have hXq : (Polynomial.X * toPoly (d :: r')).natDegree = (d :: r').length := by
        rw [Polynomial.natDegree_mul Polynomial.X_ne_zero hne0,
          Polynomial.natDegree_X, hdeg]
        simp only [List.length_cons]
        omega
      have hlen1 : 1 ≤ (d :: r').length := by simp
      have hlt : (Polynomial.C c).natDegree < (Polynomial.X * toPoly (d :: r')).natDegree := by
        rw [Polynomial.natDegree_C, hXq]
        omega
      have hdeg' : (toPoly (c :: d :: r')).natDegree = (d :: r').length := by
        rw [toPoly_cons, Polynomial.natDegree_add_eq_right_of_natDegree_lt hlt, hXq]
      constructor
      · intro h0
        rw [h0, Polynomial.natDegree_zero] at hdeg'
        simp only [List.length_cons] at hdeg'
        omega
      · rw [hdeg']
        simp only [List.length_cons]
        omega

theorem toPoly_linear (e : F) : toPoly [-e, 1] = Polynomial.X - Polynomial.C e := by
  rw [toPoly_cons, toPoly_cons, toPoly_nil]
  simp only [map_neg, map_one, mul_zero, add_zero, mul_one]
  ring

/-- Product of the linear factors X - e over a list, built exactly as the
source loops build P(X) = prod (X - e_i) from from_coefficients_vec. -/
def pprodMonic (E : List F) : List F :=
  E.foldl (fun acc e => pmul acc [-e, 1]) [1]

theorem pprodMonic_aux_toPoly (E : List F) :
    ∀ acc : List F, toPoly (E.foldl (fun a e => pmul a [-e, 1]) acc) =
      toPoly acc * (E.map (fun x => Polynomial.X - Polynomial.C x)).prod := by
  induction E with
  | nil => intro acc; simp
  | cons e E ih =>
    intro acc
    rw [List.foldl_cons, ih, toPoly_pmul, toPoly_linear, List.map_cons,
      List.prod_cons]
    ring

theorem pprodMonic_toPoly (E : List F) :
    toPoly (pprodMonic E) = (E.map (fun x => Polynomial.X - Polynomial.C x)).prod := by
  rw [pprodMonic, pprodMonic_aux_toPoly, toPoly_one, one_mul]

theorem pprodMonic_aux_lead (E : List F) :
    ∀ acc : List F, acc ≠ [] → plead acc = 1 →
      (E.foldl (fun a e => pmul a [-e, 1]) acc) ≠ [] ∧
      plead (E.foldl (fun a e => pmul a [-e, 1]) acc) = 1 := by
  induction E with
  | nil => intro acc h1 h2; exact ⟨h1, h2⟩
  | cons e E ih =>
    intro acc h1 h2
    have hlin : ([-e, 1] : List F) ≠ [] := by simp
    have hmne : pmul acc [-e, 1] ≠ [] := by
      intro hcon
      have hl := len_pmul h1 hlin
      rw [hcon] at hl
      simp only [List.length_nil, List.length_cons, List.length_singleton] at hl
      have := List.length_pos.mpr h1
      omega
    have hml : plead (pmul acc [-e, 1]) = 1 := by
      rw [plead_pmul h1 hlin, h2, plead_cons_of_ne_nil _ (by simp), plead_singleton]
      ring
    rw [List.foldl_cons]
    exact ih _ hmne hml

theorem pprodMonic_ne_nil (E : List F) : pprodMonic E ≠ [] :=
  (pprodMonic_aux_lead E [1] (by simp) (plead_singleton 1)).1

theorem pprodMonic_plead (E : List F) : plead (pprodMonic E) = 1 :=
  (pprodMonic_aux_lead E [1] (by simp) (plead_singleton 1)).2

theorem pprodMonic_canon (E : List F) : ptrim (pprodMonic E) = pprodMonic E :=
  ptrim_eq_self_of_plead (pprodMonic_ne_nil E)
    (by rw [pprodMonic_plead]; exact one_ne_zero)

theorem pprodMonic_eval (E : List F) (x : F) :
    (toPoly (pprodMonic E)).eval x = (E.map (fun e => x - e)).prod := by
  rw [pprodMonic_toPoly, Polynomial.eval_list_prod, List.map_map]
  have hfun : (Polynomial.eval x ∘ fun y : F => Polynomial.X - Polynomial.C y) =
      fun e : F => x - e := by
    funext e
    simp
  rw [hfun]

end PolyDegree

section AccumulatorProofs

variable {F : Type} [Field F] [DecidableEq F]

/-- ark DensePolynomial::is_zero: empty coefficients or all zero. -/
def pIsZero (p : List F) : Bool := decide (ptrim p = [])

/-- ark DensePolynomial::degree: 0 for the zero polynomial, otherwise the
coefficient count minus one. -/
def pdegree (p : List F) : Nat := if ptrim p = [] then 0 else p.length - 1

/-- Source DynamicAccumulator::prove_non_membership: errors for a present
digest; otherwise builds P(X) = prod (X - e_i) and Q(X) = X - x, runs xgcd,
demands a nonzero constant gcd, normalizes the Bezout coefficients by the
gcd constant, and evaluates them at the secret s (the exponents of g1^A(s)
and g2^B(s)). -/
def DynamicAccumulator.prove_non_membership (s : F) (dg : Int → F)
    (a : DynamicAccumulator F) (element : Int) : Option (NonMembershipProof F) :=
  let fr_element := dg element
  if fr_element ∈ a.elements then none
  else
    let p_poly := pprodMonic a.elements
    let q_poly : List F := [-fr_element, 1]
    match xgcd q_poly p_poly with
    | some (gcd, a_poly, b_poly) =>
      if pIsZero gcd = false ∧ pdegree gcd = 0 then
        let gcd_val := gcd.headD 1
        if gcd_val = 0 then none
        else
          let a_poly_norm := a_poly.map (fun c => c * gcd_val⁻¹)
          let b_poly_norm := b_poly.map (fun c => c * gcd_val⁻¹)
          some { element := fr_element, witness := peval b_poly_norm s,
                 g1_a := peval a_poly_norm s }
      else none
    | none => none

/-- Source DynamicAccumulator::verify_non_membership, the pairing check
e(Acc, g2^B(s)) * e(g1^A(s), g2^(s-x)) == e(g1, g2) in discrete-log form:
acc * B(s) + A(s) * (s - x) = 1. -/
def DynamicAccumulator.verify_non_membership (s : F) (a : DynamicAccumulator F)
    (p : NonMembershipProof F) : Bool :=
  decide (a.acc_value * p.witness + p.g1_a * (s - p.element) = 1)

/-- The accumulator of a digest list E under the spec invariant
acc_value = g1^(prod (s - e)); spec notation acc(E). -/
def accOf (s : F) (E : List F) : DynamicAccumulator F :=
  { acc_value := (E.map (fun e => s - e)).prod, elements := E }

theorem q_poly_canon (fr : F) : ptrim [-fr, 1] = [-fr, 1] := by
  apply ptrim_eq_self_of_plead (by simp)
  rw [plead_cons_of_ne_nil _ (by simp), plead_singleton]
  exact one_ne_zero

/-- Core success-and-soundness fact for the xgcd call of
prove_non_membership: for a digest fr that is not a root of P, the gcd of
(X - fr) and P is a nonzero constant. -/
theorem xgcd_linear_coprime (fr : F) (p_poly : List F)
    (hpc : ptrim p_poly = p_poly) (hpne : p_poly ≠ [])
    (hPfr : (toPoly p_poly).eval fr ≠ 0) :
    ∀ g u v, xgcd [-fr, 1] p_poly = some (g, u, v) →
      toPoly u * toPoly [-fr, 1] + toPoly v * toPoly p_poly = toPoly g ∧
      g ≠ [] ∧ ptrim g = g ∧ g.length = 1 ∧ g.headD 1 ≠ 0 := by
  intro g u v hout
  obtain ⟨hbez, hdvdq, hdvdp, hne, hgc⟩ :=
    xgcd_spec [-fr, 1] p_poly (q_poly_canon fr) hpc g u v hout
  have hgne : g ≠ [] := hne (Or.inl (by simp))
  obtain ⟨hq_ne, hq_deg⟩ := toPoly_canon_spec (q_poly_canon fr) (by simp)
  obtain ⟨hg_ne, hg_deg⟩ := toPoly_canon_spec hgc hgne
  have hq_deg1 : (toPoly [-fr, 1]).natDegree = 1 := by
    rw [hq_deg]
    rfl
  have hqfr : (toPoly [-fr, 1]).eval fr = 0 := by
    rw [toPoly_linear]
    simp
  have hgle : (toPoly g).natDegree ≤ 1 := by
    rw [← hq_deg1]
    exact Polynomial.natDegree_le_of_dvd hdvdq hq_ne
  have hgdeg0 : (toPoly g).natDegree = 0 := by
    by_contra hne0
    have hdeg1 : (toPoly g).natDegree = 1 := by omega
    obtain ⟨t, ht⟩ := hdvdq
    have htne : t ≠ 0 := by
      intro h0
      rw [h0, mul_zero] at ht
      exact hq_ne ht
    have htdeg : t.natDegree = 0 := by
      have := Polynomial.natDegree_mul hg_ne htne
      rw [← ht, hq_deg1, hdeg1] at this
      omega
    have htfr : t.eval fr ≠ 0 := by
      have hC := Polynomial.eq_C_of_natDegree_eq_zero htdeg
      rw [hC, Polynomial.eval_C]
      intro h0
      rw [h0, map_zero] at hC
      exact htne hC
    have hgfr : (toPoly g).eval fr = 0 := by
      have := congrArg (Polynomial.eval fr) ht
      rw [Polynomial.eval_mul, hqfr] at this
      rcases mul_eq_zero.mp this.symm with h | h
      · exact h
      · exact absurd h htfr
    obtain ⟨w, hw⟩ := hdvdp
    have : (toPoly p_poly).eval fr = 0 := by
      rw [hw, Polynomial.eval_mul, hgfr, zero_mul]
    exact hPfr this
  have hglen : g.length = 1 := by
    have hpos : 1 ≤ g.length := List.length_pos.mpr hgne
    rw [hgdeg0] at hg_deg
    omega
  obtain ⟨g0, hg0⟩ := List.length_eq_one.mp hglen
  have hg0ne : g.headD 1 ≠ 0 := by
    have hlead := ptrim_plead_ne_zero g (by rw [hgc]; exact hgne)
    rw [hgc] at hlead
    rw [hg0] at hlead ⊢
    rw [plead_singleton] at hlead
    simpa using hlead
  exact ⟨hbez, hgne, hgc, hglen, hg0ne⟩

/-- CLAIM C5: non-membership proof completeness and prover-side soundness.
Over any element digest list E (the empty list included), if the digest of
e is in E the prover errors; if it is not, prove_non_membership succeeds
and the proof verifies against acc(E). -/
theorem c5_non_membership (s : F) (dg : Int → F) (E : List F) (e : Int) :
    (dg e ∈ E → DynamicAccumulator.prove_non_membership s dg (accOf s E) e = none) ∧
    (dg e ∉ E →
      ∃ pf, DynamicAccumulator.prove_non_membership s dg (accOf s E) e = some pf ∧
        DynamicAccumulator.verify_non_membership s (accOf s E) pf = true) := by
  constructor
  · intro hm
    simp [DynamicAccumulator.prove_non_membership, accOf, hm]
  · intro hnm
    have hPfr : (toPoly (pprodMonic E)).eval (dg e) ≠ 0 := by
      rw [pprodMonic_eval]
      apply List.prod_ne_zero
      intro hx
      obtain ⟨y, hy, hxy⟩ := List.mem_map.mp hx
      exact hnm ((sub_eq_zero.mp hxy) ▸ hy)
    set t := xgcdAux ((pprodMonic E).length + 1) [-dg e, 1] (pprodMonic E) [1] [] [] [1]
      with ht
    have hout : xgcd [-dg e, 1] (pprodMonic E) = some (t.1, t.2.1, t.2.2) := rfl
    obtain ⟨hbez, hgne, hgc, hglen, hg0ne⟩ :=
      xgcd_linear_coprime (dg e) (pprodMonic E) (pprodMonic_canon E)
        (pprodMonic_ne_nil E) hPfr t.1 t.2.1 t.2.2 hout
    have hIsZero : pIsZero t.1 = false := by
      rw [pIsZero, hgc]
      exact decide_eq_false hgne
    have hdeg0 : pdegree t.1 = 0 := by
      rw [pdegree, hgc, if_neg hgne, hglen]
    refine ⟨{ element := dg e,
              witness := peval (t.2.2.map (fun c => c * (t.1.headD 1)⁻¹)) s,
              g1_a := peval (t.2.1.map (fun c => c * (t.1.headD 1)⁻¹)) s }, ?_, ?_⟩
    · rw [DynamicAccumulator.prove_non_membership]
      simp only [accOf]
      rw [if_neg hnm, hout]
      simp only [hIsZero, hdeg0, and_self, if_true, if_neg hg0ne]
    · rw [DynamicAccumulator.verify_non_membership]
      apply decide_eq_true
      have hbev := congrArg (Polynomial.eval s) hbez
      rw [Polynomial.eval_add, Polynomial.eval_mul, Polynomial.eval_mul] at hbev
      have hqs : (toPoly [-dg e, 1]).eval s = s - dg e := by
        rw [toPoly_linear]
        simp
      have hg0 : ∀ c : F, (toPoly t.1).eval c = t.1.headD 1 := by
        intro c
        obtain ⟨g0, hgg⟩ := List.length_eq_one.mp hglen
        rw [hgg, toPoly_cons, toPoly_nil]
        simp
      rw [hqs, hg0] at hbev
      have hwit : peval (t.2.2.map (fun c => c * (t.1.headD 1)⁻¹)) s =
          (toPoly t.2.2).eval s * (t.1.headD 1)⁻¹ := by
        rw [← peval_toPoly, toPoly_mapRightScale, Polynomial.eval_mul,
          Polynomial.eval_C]
      have hga : peval (t.2.1.map (fun c => c * (t.1.headD 1)⁻¹)) s =
          (toPoly t.2.1).eval s * (t.1.headD 1)⁻¹ := by
        rw [← peval_toPoly, toPoly_mapRightScale, Polynomial.eval_mul,
          Polynomial.eval_C]
      have hacc : (accOf s E).acc_value = (toPoly (pprodMonic E)).eval s := by
        rw [pprodMonic_eval, accOf]
      rw [hwit, hga, hacc]
      have hcancel : t.1.headD 1 * (t.1.headD 1)⁻¹ = 1 := mul_inv_cancel₀ hg0ne
      linear_combination (t.1.headD 1)⁻¹ * hbev + hcancel

end AccumulatorProofs

/-- Witness for C5 at concrete inputs: F = Fin 5, s = 2, cast digest,
E = the single digest 3; element 3 is present (prover errors), element 5
digests to 0, is absent, and the produced proof verifies. -/
theorem c5_non_membership_witness :
    (((fun n : Int => (n : Frw)) 3 ∈ [(3 : Frw)]) ∧
      ((fun n : Int => (n : Frw)) 5 ∉ [(3 : Frw)])) ∧
    (DynamicAccumulator.prove_non_membership 2 (fun n => (n : Frw))
      (accOf 2 [3]) 3 = none) ∧
    (∃ pf, DynamicAccumulator.prove_non_membership 2 (fun n => (n : Frw))
        (accOf 2 [3]) 5 = some pf ∧
      DynamicAccumulator.verify_non_membership 2 (accOf 2 [3]) pf = true) := by
  refine ⟨⟨by decide, by decide⟩, ?_, ?_⟩
  · exact (c5_non_membership 2 (fun n => (n : Frw)) [3] 3).1 (by decide)
  · exact (c5_non_membership 2 (fun n => (n : Frw)) [3] 5).2 (by decide)

section Intersection

variable {F : Type} [Field F] [DecidableEq F]

/-- Source DynamicAccumulator::prove_intersection: compute the explicit
intersection and its accumulator value, divide P1 and P2 by P_intersect
demanding zero remainders, prove coprimality of the quotients via xgcd with
a nonzero constant gcd, and evaluate everything at the secret s. -/
def DynamicAccumulator.prove_intersection (s : F) (a other : DynamicAccumulator F) :
    Option (DynamicAccumulator F × IntersectionProof F) :=
  let intersection_elements := a.elements.filter (fun x => x ∈ other.elements)
  let intersection_acc : DynamicAccumulator F :=
    { acc_value := (intersection_elements.map (fun e => s - e)).prod,
      elements := intersection_elements }
  let p1_poly := pprodMonic a.elements
  let p2_poly := pprodMonic other.elements
  let p_intersect_poly := pprodMonic intersection_elements
  match pdivmod p1_poly p_intersect_poly with
  | none => none
  | some (q1_poly, remainder1) =>
    if pIsZero remainder1 = false then none
    else
      match pdivmod p2_poly p_intersect_poly with
      | none => none
      | some (q2_poly, remainder2) =>
        if pIsZero remainder2 = false then none
        else
          match xgcd q1_poly q2_poly with
          | none => none
          | some (gcd, a_poly, b_poly) =>
            if pIsZero gcd = false ∧ pdegree gcd = 0 then
              let gcd_val := gcd.headD 1
              if gcd_val = 0 then none
              else
                some (intersection_acc,
                  { witness_a := peval q1_poly s, witness_b := peval q2_poly s,
                    witness_coprime_a := peval (a_poly.map (fun c => c * gcd_val⁻¹)) s,
                    witness_coprime_b := peval (b_poly.map (fun c => c * gcd_val⁻¹)) s })
            else none

/-- Source DynamicAccumulator::verify_intersection: the three pairing checks
e(acc1, g2) == e(inter, wa), e(acc2, g2) == e(inter, wb),
e(cA, wa) * e(cB, wb) == e(g1, g2), in discrete-log form. -/
def DynamicAccumulator.verify_intersection (acc1_value acc2_value intersection_value : F)
    (proof : IntersectionProof F) : Bool :=
  decide (acc1_value = intersection_value * proof.witness_a) &&
  decide (acc2_value = intersection_value * proof.witness_b) &&
  decide (proof.witness_coprime_a * proof.witness_a +
    proof.witness_coprime_b * proof.witness_b = 1)

/-- Source DynamicAccumulator::prove_union: piggy-backs on the intersection
proof and builds the union accumulator from the explicit union of the
element sets. -/
def DynamicAccumulator.prove_union (s : F) (a other : DynamicAccumulator F) :
    Option (DynamicAccumulator F × UnionProof F) :=
  match DynamicAccumulator.prove_intersection s a other with
  | none => none
  | some (intersection_acc, intersection_proof) =>
    let union_elements := a.elements ++ other.elements.filter (fun x => x ∉ a.elements)
    let union_acc : DynamicAccumulator F :=
      { acc_value := (union_elements.map (fun e => s - e)).prod,
        elements := union_elements }
    some (union_acc,
      { intersection_acc_value := intersection_acc.acc_value,
        intersection_proof := intersection_proof })

/-- Source DynamicAccumulator::verify_union: the embedded intersection proof
must verify, and the group equation acc1 + acc2 == accU + accI must hold
(point addition in G1 becomes addition of exponents). -/
def DynamicAccumulator.verify_union (acc1_value acc2_value union_acc_value : F)
    (proof : UnionProof F) : Bool :=
  DynamicAccumulator.verify_intersection acc1_value acc2_value
    proof.intersection_acc_value proof.intersection_proof &&
  decide (acc1_value + acc2_value = union_acc_value + proof.intersection_acc_value)

end Intersection

/-- CLAIM C1 counterexample: over F = Fin 5 with s = 0 and the cast digest,
the accumulators of the disjoint singletons {1} and {2}, each built by one
successful add, make prove_union succeed while verify_union rejects the
honestly computed union: the embedded intersection proof verifies, but
acc1 + acc2 differs from accU + accI in the group (exponents 3 versus 2),
because the counting identity lifts to a product, not a sum, of the point
exponents. -/
theorem c1_union_counterexample :
    (DynamicAccumulator.prove_union (0 : Frw)
        ((DynamicAccumulator.new Frw).add 0 (fun n => (n : Frw)) 1).1
        ((DynamicAccumulator.new Frw).add 0 (fun n => (n : Frw)) 2).1).map
      (fun p => DynamicAccumulator.verify_union
        (((DynamicAccumulator.new Frw).add 0 (fun n => (n : Frw)) 1).1).acc_value
        (((DynamicAccumulator.new Frw).add 0 (fun n => (n : Frw)) 2).1).acc_value
        p.1.acc_value p.2) = some false := by
  decide

section UnionCompleteness

variable {F : Type} [Field F] [DecidableEq F]

theorem pdivmod_toPoly_of_eq {a b q r : List F} (h : pdivmod a b = some (q, r)) :
    toPoly a = toPoly b * toPoly q + toPoly r := by
  rw [pdivmod] at h
  by_cases hb : b = []
  · rw [if_pos hb] at h
    exact absurd h (by simp)
  · rw [if_neg hb] at h
    have h2 : pdivmodAux b (plead b)⁻¹ (a.length + 1) a = (q, r) := by
      injection h
    have hsp := pdivmodAux_toPoly b (plead b)⁻¹ (a.length + 1) a
    rw [h2] at hsp
    exact hsp

theorem xgcd_bezout_of_eq {a b g u v : List F} (h : xgcd a b = some (g, u, v)) :
    toPoly u * toPoly a + toPoly v * toPoly b = toPoly g := by
  rw [xgcd] at h
  have h2 : xgcdAux (b.length + 1) a b [1] [] [] [1] = (g, u, v) := by
    injection h
  have hb := xgcdAux_bezout (toPoly a) (toPoly b) (b.length + 1) a b [1] [] [] [1]
    (by rw [toPoly_one, toPoly_nil]; ring) (by rw [toPoly_one, toPoly_nil]; ring)
  rw [h2] at hb
  exact hb

theorem toPoly_eq_zero_of_pIsZero {r : List F} (h : pIsZero r = true) :
    toPoly r = 0 := by
  rw [pIsZero, decide_eq_true_iff] at h
  rw [← toPoly_ptrim, h, toPoly_nil]

/-- Inversion of a successful prove_intersection: the returned accumulator
is the explicit intersection, and the three pairing equations of
verify_intersection hold between the inputs and the proof. -/
theorem prove_intersection_inv (s : F) (a other iacc : DynamicAccumulator F)
    (ipf : IntersectionProof F)
    (hout : DynamicAccumulator.prove_intersection s a other = some (iacc, ipf)) :
    iacc.elements = a.elements.filter (fun x => x ∈ other.elements) ∧
    iacc.acc_value = ((a.elements.filter (fun x => x ∈ other.elements)).map
      (fun e => s - e)).prod ∧
    (toPoly (pprodMonic a.elements)).eval s = iacc.acc_value * ipf.witness_a ∧
    (toPoly (pprodMonic other.elements)).eval s = iacc.acc_value * ipf.witness_b ∧
    ipf.witness_coprime_a * ipf.witness_a + ipf.witness_coprime_b * ipf.witness_b
      = 1 := by
  simp only [DynamicAccumulator.prove_intersection] at hout
  cases hdm1 : pdivmod (pprodMonic a.elements)
      (pprodMonic (a.elements.filter (fun x => x ∈ other.elements))) with
  | none =>
    rw [hdm1] at hout
    simp at hout
  | some qr1 =>
    obtain ⟨q1, r1⟩ := qr1
    rw [hdm1] at hout
    by_cases hr1 : pIsZero r1 = false
    · simp [hr1] at hout
    · simp only [if_neg hr1] at hout
      cases hdm2 : pdivmod (pprodMonic other.elements)
          (pprodMonic (a.elements.filter (fun x => x ∈ other.elements))) with
      | none =>
        rw [hdm2] at hout
        simp at hout
      | some qr2 =>
        obtain ⟨q2, r2⟩ := qr2
        rw [hdm2] at hout
        by_cases hr2 : pIsZero r2 = false
        · simp [hr2] at hout
        · simp only [if_neg hr2] at hout
          cases hxg : xgcd q1 q2 with
          | none =>
            rw [hxg] at hout
            simp at hout
          | some guv =>
            obtain ⟨g, u, v⟩ := guv
            rw [hxg] at hout
            by_cases hch : pIsZero g = false ∧ pdegree g = 0
            · simp only [if_pos hch] at hout
              by_cases hgv : g.headD 1 = 0
              · rw [if_pos hgv] at hout
                simp at hout
              · simp only [if_neg hgv] at hout
                simp only [Option.some.injEq, Prod.mk.injEq] at hout
                obtain ⟨hiacc, hipf⟩ := hout
                have hz1 : toPoly r1 = 0 :=
                  toPoly_eq_zero_of_pIsZero (by
                    cases hb : pIsZero r1
                    · exact absurd hb hr1
                    · rfl)
                have hz2 : toPoly r2 = 0 :=
                  toPoly_eq_zero_of_pIsZero (by
                    cases hb : pIsZero r2
                    · exact absurd hb hr2
                    · rfl)
                have hd1 := pdivmod_toPoly_of_eq hdm1
                have hd2 := pdivmod_toPoly_of_eq hdm2
                rw [hz1, add_zero] at hd1
                rw [hz2, add_zero] at hd2
                have hglen : g.length = 1 := by
                  have hgz : ptrim g ≠ [] := by
                    have := hch.1
                    rw [pIsZero, decide_eq_false_iff_not] at this
                    exact this
                  have hgdeg := hch.2
                  rw [pdegree, if_neg hgz] at hgdeg
                  have hgne : g ≠ [] := by
                    intro hcon
                    rw [hcon] at hgz
                    exact hgz rfl
                  have := List.length_pos.mpr hgne
                  omega
                obtain ⟨g0, hg0⟩ := List.length_eq_one.mp hglen
                have hbez := xgcd_bezout_of_eq hxg
                have hbev := congrArg (Polynomial.eval s) hbez
                rw [Polynomial.eval_add, Polynomial.eval_mul, Polynomial.eval_mul]
                  at hbev
                have hgs : (toPoly g).eval s = g.headD 1 := by
                  rw [hg0, toPoly_cons, toPoly_nil]
                  simp
                rw [hgs] at hbev
                refine ⟨?_, ?_, ?_, ?_, ?_⟩
                · rw [← hiacc]
                · rw [← hiacc]
                · rw [← hiacc, ← hipf]
                  have := congrArg (Polynomial.eval s) hd1
                  rw [Polynomial.eval_mul] at this
                  rw [this, pprodMonic_eval, peval_toPoly]
                · rw [← hiacc, ← hipf]
                  have := congrArg (Polynomial.eval s) hd2
                  rw [Polynomial.eval_mul] at this
                  rw [this, pprodMonic_eval, peval_toPoly]
                · rw [← hipf]
                  simp only
                  have hwa : peval (u.map (fun c => c * (g.headD 1)⁻¹)) s =
                      (toPoly u).eval s * (g.headD 1)⁻¹ := by
                    rw [← peval_toPoly, toPoly_mapRightScale, Polynomial.eval_mul,
                      Polynomial.eval_C]
                  have hwb : peval (v.map (fun c => c * (g.headD 1)⁻¹)) s =
                      (toPoly v).eval s * (g.headD 1)⁻¹ := by
                    rw [← peval_toPoly, toPoly_mapRightScale, Polynomial.eval_mul,
                      Polynomial.eval_C]
                  rw [hwa, hwb, ← peval_toPoly, ← peval_toPoly]
                  have hcancel : g.headD 1 * (g.headD 1)⁻¹ = 1 :=
                    mul_inv_cancel₀ hgv
                  linear_combination (g.headD 1)⁻¹ * hbev + hcancel
            · simp [hch] at hout

end UnionCompleteness

/-- CLAIM C1 (amended): if prove_union succeeds on accumulators acc(E1) and
acc(E2) over duplicate-free digest lists, then the embedded intersection
proof always verifies, and verify_union accepts exactly when the group
equation acc1 + acc2 = accU + accI holds; that equation holds whenever one
element set contains the other (so verify_union accepts in that case), but
it fails for general incomparable sets, as the counterexample shows. -/
theorem c1_union_verifies_of_subset (s : F) (E1 E2 : List F) (h1 : E1.Nodup)
    (h2 : E2.Nodup)
    (hsub : (∀ x ∈ E1, x ∈ E2) ∨ (∀ x ∈ E2, x ∈ E1)) :
    ∀ uacc upf,
      DynamicAccumulator.prove_union s (accOf s E1) (accOf s E2) = some (uacc, upf) →
      DynamicAccumulator.verify_union (accOf s E1).acc_value (accOf s E2).acc_value
        uacc.acc_value upf = true := by
  intro uacc upf hout
  rw [DynamicAccumulator.prove_union] at hout
  cases hpi : DynamicAccumulator.prove_intersection s (accOf s E1) (accOf s E2) with
  | none =>
    rw [hpi] at hout
    simp at hout
  | some pr =>
    obtain ⟨iacc, ipf⟩ := pr
    rw [hpi] at hout
    simp only [Option.some.injEq, Prod.mk.injEq] at hout
    obtain ⟨huacc, hupf⟩ := hout
    obtain ⟨hie, hia, heq1, heq2, heq3⟩ :=
      prove_intersection_inv s (accOf s E1) (accOf s E2) iacc ipf hpi
    have hE1e : (accOf s E1).elements = E1 := rfl
    have hE2e : (accOf s E2).elements = E2 := rfl
    simp only [hE1e, hE2e] at hia heq1 heq2 huacc
    have hacc1 : (accOf s E1).acc_value =
        (toPoly (pprodMonic E1)).eval s := (pprodMonic_eval E1 s).symm
    have hacc2 : (accOf s E2).acc_value =
        (toPoly (pprodMonic E2)).eval s := (pprodMonic_eval E2 s).symm
    subst hupf
    subst huacc
    rw [DynamicAccumulator.verify_union, DynamicAccumulator.verify_intersection]
    simp only [Bool.and_eq_true, decide_eq_true_eq]
    refine ⟨⟨⟨?_, ?_⟩, ?_⟩, ?_⟩
    · rw [hacc1]
      exact heq1
    · rw [hacc2]
      exact heq2
    · exact heq3
    · rcases hsub with hs | hs
      · have hfilter : E1.filter (fun x => decide (x ∈ E2)) = E1 :=
          List.filter_eq_self.mpr (fun a ha => by simpa using hs a ha)
        have hiacc2 : iacc.acc_value = (accOf s E1).acc_value := by
          rw [hia, hfilter]
          rfl
        have hdisj : E1.Disjoint (E2.filter (fun x => decide (x ∉ E1))) := by
          intro x hx1 hx2
          have := (List.mem_filter.mp hx2).2
          simp only [decide_eq_true_eq] at this
          exact this hx1
        have hnd : (E1 ++ E2.filter (fun x => decide (x ∉ E1))).Nodup :=
          h1.append (h2.filter _) hdisj
        have hmem : ∀ x, x ∈ E1 ++ E2.filter (fun x => decide (x ∉ E1)) ↔ x ∈ E2 := by
          intro x
          constructor
          · intro hx
            rcases List.mem_append.mp hx with hl | hr
            · exact hs x hl
            · exact (List.mem_filter.mp hr).1
          · intro hx
            by_cases hx1 : x ∈ E1
            · exact List.mem_append.mpr (Or.inl hx1)
            · refine List.mem_append.mpr (Or.inr (List.mem_filter.mpr ⟨hx, ?_⟩))
              simpa using hx1
        have hperm : (E1 ++ E2.filter (fun x => decide (x ∉ E1))).Perm E2 :=
          (List.perm_ext_iff_of_nodup hnd h2).mpr hmem
        have hprod : ((E1 ++ E2.filter (fun x => decide (x ∉ E1))).map
            (fun e => s - e)).prod = (accOf s E2).acc_value :=
          (hperm.map (fun e => s - e)).prod_eq
        show (accOf s E1).acc_value + (accOf s E2).acc_value =
          ((E1 ++ E2.filter (fun x => decide (x ∉ E1))).map (fun e => s - e)).prod +
            iacc.acc_value
        rw [hprod, hiacc2]
        ring
      · have hpermI : (E1.filter (fun x => decide (x ∈ E2))).Perm E2 := by
          apply (List.perm_ext_iff_of_nodup (h1.filter _) h2).mpr
          intro x
          constructor
          · intro hx
            have := (List.mem_filter.mp hx).2
            simpa using this
          · intro hx
            exact List.mem_filter.mpr ⟨hs x hx, by simpa using hx⟩
        have hiacc2 : iacc.acc_value = (accOf s E2).acc_value := by
          rw [hia]
          exact (hpermI.map (fun e => s - e)).prod_eq
        have hfl : E2.filter (fun x => decide (x ∉ E1)) = [] := by
          apply List.filter_eq_nil_iff.mpr
          intro a ha
          simp only [decide_eq_true_eq, not_not]
          exact hs a ha
        show (accOf s E1).acc_value + (accOf s E2).acc_value =
          ((E1 ++ E2.filter (fun x => decide (x ∉ E1))).map (fun e => s - e)).prod +
            iacc.acc_value
        rw [hfl, List.append_nil, hiacc2]
        rfl

/-- Witness for the amended C1 at concrete inputs: F = Fin 5, s = 2,
E1 = [3] contained in E2 = [3, 1]; prove_union succeeds and verify_union
accepts. -/
theorem c1_union_verifies_of_subset_witness :
    ∃ uacc upf,
      DynamicAccumulator.prove_union (2 : Frw) (accOf 2 [3]) (accOf 2 [3, 1]) =
        some (uacc, upf) ∧
      DynamicAccumulator.verify_union (accOf (2 : Frw) [3]).acc_value
        (accOf (2 : Frw) [3, 1]).acc_value uacc.acc_value upf = true := by
  obtain ⟨pr, hpr⟩ : ∃ pr, DynamicAccumulator.prove_union (2 : Frw) (accOf 2 [3])
      (accOf 2 [3, 1]) = some pr := by
    cases h : DynamicAccumulator.prove_union (2 : Frw) (accOf 2 [3]) (accOf 2 [3, 1]) with
    | none => exact absurd h (by decide)
    | some pr => exact ⟨pr, rfl⟩
  exact ⟨pr.1, pr.2, hpr,
    c1_union_verifies_of_subset 2 [3] [3, 1] (by decide) (by decide)
      (Or.inl (by decide)) pr.1 pr.2 hpr⟩

/-!
MPT engine (storager/ads/src/mpt).  Byte strings are List Nat.  SHA-256
lives in the external sha2 crate; it is modelled as a free constructor over
its input stream, which makes it injective by construction (the standard
collision-freeness modelling assumption).  A 32-byte hash array is a HashV:
either the zero/value-padded array the verifier starts from, or a digest.
Hash inputs mix raw bytes with embedded 32-byte hash arrays, so the digest
input is a stream HSeq of byte and hash symbols, concatenated exactly as
update_hash and compute_mpt_root push them.  The external KV database and
the node cache only matter for lazily materialized nodes; the states built
here keep every node in memory, so the db is modelled as empty (a db get
returns nothing).
-/

mutual
inductive HashV where
  | valPad : List Nat → HashV
  | sha : HSeq → HashV
deriving DecidableEq
inductive HSeq where
  | nil : HSeq
  | byte : Nat → HSeq → HSeq
  | hash : HashV → HSeq → HSeq
deriving DecidableEq
end

/-- The [0u8; 32] array (initial node_hash, empty-MPT root hash). -/
def zeroHash : HashV := HashV.valPad (List.replicate 32 0)

/-- Stream concatenation. -/
def HSeq.append : HSeq → HSeq → HSeq
  | .nil, t => t
  | .byte b r, t => .byte b (HSeq.append r t)
  | .hash h r, t => .hash h (HSeq.append r t)

/-- Embed a byte string into a stream. -/
def bytesSeq (l : List Nat) : HSeq := l.foldr HSeq.byte HSeq.nil

/-- Deferred-delete counters: map<String, map<String, u32>> as nested
association lists. -/
abbrev ToDel : Type := List (Str × List (Str × Nat))

mutual
inductive FullNode where
  | mk (node_hash : HashV) (children : List (Option ShortNode))
      (children_hash : List (Option HashV)) (value : Option (List Nat))
      (is_dirty : Bool) (to_del_map : ToDel)
inductive ShortNode where
  | mk (node_hash : HashV) (pfx : List Nat) (is_leaf : Bool) (is_dirty : Bool)
      (suffix : List Nat) (next_node : Option FullNode) (next_node_hash : HashV)
      (value : Option (List Nat)) (to_del_map : ToDel)
end

def FullNode.node_hash : FullNode → HashV
  | .mk h _ _ _ _ _ => h

def FullNode.children : FullNode → List (Option ShortNode)
  | .mk _ c _ _ _ _ => c

def FullNode.children_hash : FullNode → List (Option HashV)
  | .mk _ _ ch _ _ _ => ch

def FullNode.value : FullNode → Option (List Nat)
  | .mk _ _ _ v _ _ => v

def FullNode.is_dirty : FullNode → Bool
  | .mk _ _ _ _ d _ => d

def FullNode.to_del_map : FullNode → ToDel
  | .mk _ _ _ _ _ m => m

def ShortNode.node_hash : ShortNode → HashV
  | .mk h _ _ _ _ _ _ _ _ => h

def ShortNode.pfx : ShortNode → List Nat
  | .mk _ p _ _ _ _ _ _ _ => p

def ShortNode.is_leaf : ShortNode → Bool
  | .mk _ _ l _ _ _ _ _ _ => l

def ShortNode.is_dirty : ShortNode → Bool
  | .mk _ _ _ d _ _ _ _ _ => d

def ShortNode.suffix : ShortNode → List Nat
  | .mk _ _ _ _ s _ _ _ _ => s

def ShortNode.next_node : ShortNode → Option FullNode
  | .mk _ _ _ _ _ n _ _ _ => n

def ShortNode.next_node_hash : ShortNode → HashV
  | .mk _ _ _ _ _ _ nh _ _ => nh

def ShortNode.value : ShortNode → Option (List Nat)
  | .mk _ _ _ _ _ _ _ v _ => v

def ShortNode.to_del_map : ShortNode → ToDel
  | .mk _ _ _ _ _ _ _ _ m => m

/-- Source ShortNode::update_hash: H(prefix ‖ suffix ‖ (value if leaf else
next_node_hash)). -/
def shortHashOf (pfx suffix : List Nat) (is_leaf : Bool)
    (value : Option (List Nat)) (next_node_hash : HashV) : HashV :=
  HashV.sha (HSeq.append (bytesSeq pfx) (HSeq.append (bytesSeq suffix)
    (if is_leaf then bytesSeq (value.getD [])
     else HSeq.hash next_node_hash HSeq.nil)))

def ShortNode.update_hash (n : ShortNode) : ShortNode :=
  match n with
  | .mk _ p l d s nn nh v m =>
    .mk (shortHashOf p s l v nh) p l d s nn nh v m

/-- Source FullNode::update_hash: H(present children hashes in slot order ‖
value if present). -/
def fullHashOf (children_hash : List (Option HashV)) (value : Option (List Nat)) :
    HashV :=
  HashV.sha (HSeq.append
    (children_hash.foldr
      (fun ch acc => match ch with
        | some h => HSeq.hash h acc
        | none => acc) HSeq.nil)
    (match value with
     | some v => bytesSeq v
     | none => HSeq.nil))

def FullNode.update_hash (n : FullNode) : FullNode :=
  match n with
  | .mk _ c ch v d m => .mk (fullHashOf ch v) c ch v d m

/-- Source ShortNode::new (db/cache writes omitted; they do not affect the
in-memory tree): sets next_node_hash from the next node and computes the
node hash. -/
def ShortNode.new (pfx : List Nat) (is_leaf : Bool) (suffix : List Nat)
    (next_node : Option FullNode) (value : Option (List Nat)) : ShortNode :=
  let nh := match next_node with
    | some n => n.node_hash
    | none => zeroHash
  .mk (shortHashOf pfx suffix is_leaf value nh) pfx is_leaf false suffix
    next_node nh value []

/-- Source FullNode::new: children hashes are computed from the children,
then the node hash. -/
def FullNode.new (children : List (Option ShortNode)) (value : Option (List Nat)) :
    FullNode :=
  let ch := children.map (fun c => c.map ShortNode.node_hash)
  .mk (fullHashOf ch value) children ch value false []

/-- Sixteen empty child slots. -/
def emptyChildren : List (Option ShortNode) := List.replicate 16 none

/-- Source utils::byte_to_hex_index: low 4 bits. -/
def byte_to_hex_index (b : Nat) : Nat := b % 16

/-- Source utils::key_to_hex_path: high nibble then low nibble per byte. -/
def key_to_hex_path (key : List Nat) : List Nat :=
  key.foldr (fun b acc => (b / 16 % 16) :: (b % 16) :: acc) []

/-- Source utils::common_prefix_len. -/
def common_prefix_len : List Nat → List Nat → Nat
  | a :: as', b :: bs' => if a = b then common_prefix_len as' bs' + 1 else 0
  | _, _ => 0

/-- Rust char::to_digit(16) over ASCII bytes. -/
def hexDigit (c : Nat) : Option Nat :=
  if 48 ≤ c ∧ c ≤ 57 then some (c - 48)
  else if 97 ≤ c ∧ c ≤ 102 then some (c - 87)
  else if 65 ≤ c ∧ c ≤ 70 then some (c - 55)
  else none

/-- Decode a stored hex suffix string back to nibbles, as the source does
with chars().filter_map(to_digit(16)). -/
def decodeHexSuffix (s : List Nat) : List Nat := s.filterMap hexDigit

/-- format!("{:x}", b) for a nibble. -/
def nibbleHexChar (b : Nat) : Nat := if b < 10 then 48 + b else 87 + b

/-- Nibble list to hex string bytes. -/
def hexOfNibbles (l : List Nat) : List Nat := l.map nibbleHexChar

/-- format!("{}", b): decimal digits; two digits cover every nibble. -/
def decimalBytes (n : Nat) : List Nat :=
  if n < 10 then [48 + n] else [48 + n / 10, 48 + n % 10]

/-- Rust str::trim().is_empty() over ASCII: every byte is whitespace. -/
def allWhitespace (l : List Nat) : Bool :=
  l.all (fun b => b = 9 || b = 10 || b = 13 || b = 32)

/-- Deferred-delete counter lookup. -/
def toDelGet (m : ToDel) (k v : Str) : Nat :=
  match alLookup m k with
  | none => 0
  | some inner => (alLookup inner v).getD 0

/-- Source decrement-and-clean of to_del_map[k][v]. -/
def toDelDec (m : ToDel) (k v : Str) : ToDel :=
  match alLookup m k with
  | none => m
  | some inner =>
    let inner' := match alLookup inner v with
      | none => inner
      | some c => if c - 1 = 0 then alRemove inner v else alInsert inner v (c - 1)
    if inner' = [] then alRemove m k else alInsert m k inner'

/-- Source entry(k).or_default entry(v).and_modify(+1).or_insert(1). -/
def toDelInc (m : ToDel) (k v : Str) : ToDel :=
  let inner := (alLookup m k).getD []
  let c := (alLookup inner v).getD 0
  alInsert m k (alInsert inner v (c + 1))

def FullNode.set_value (n : FullNode) (v : Option (List Nat)) : FullNode :=
  match n with
  | .mk h c ch _ d m => .mk h c ch v d m

def FullNode.set_dirty (n : FullNode) : FullNode :=
  match n with
  | .mk h c ch v _ m => .mk h c ch v true m

def FullNode.set_to_del (n : FullNode) (m' : ToDel) : FullNode :=
  match n with
  | .mk h c ch v d _ => .mk h c ch v d m'

def FullNode.set_child_at (n : FullNode) (i : Nat) (c : Option ShortNode) : FullNode :=
  match n with
  | .mk h cs ch v d m => .mk h (cs.set i c) ch v d m

def FullNode.set_child_hash_at (n : FullNode) (i : Nat) (hv : Option HashV) :
    FullNode :=
  match n with
  | .mk h cs ch v d m => .mk h cs (ch.set i hv) v d m

def ShortNode.set_value (n : ShortNode) (v : Option (List Nat)) : ShortNode :=
  match n with
  | .mk h p l d s nn nh _ m => .mk h p l d s nn nh v m

def ShortNode.set_dirty (n : ShortNode) : ShortNode :=
  match n with
  | .mk h p l _ s nn nh v m => .mk h p l true s nn nh v m

def ShortNode.set_to_del (n : ShortNode) (m' : ToDel) : ShortNode :=
  match n with
  | .mk h p l d s nn nh v _ => .mk h p l d s nn nh v m'

def ShortNode.set_suffix (n : ShortNode) (s' : List Nat) : ShortNode :=
  match n with
  | .mk h p l d _ nn nh v m => .mk h p l d s' nn nh v m

def ShortNode.set_next (n : ShortNode) (fn : Option FullNode) : ShortNode :=
  match n with
  | .mk h p l d s _ nh v m => .mk h p l d s fn nh v m

def ShortNode.set_next_hash (n : ShortNode) (nh' : HashV) : ShortNode :=
  match n with
  | .mk h p l d s nn _ v m => .mk h p l d s nn nh' v m

/-- Source "final_value.is_empty() || trim().is_empty()". -/
def needDeleteOf (final_value : List Nat) : Bool :=
  final_value.isEmpty || allWhitespace final_value

/-!
MPT::recursive_insert_full_node (mpt.rs lines 212-1110), with mutation made
explicit: the function returns the updated FullNode next to the source's
(String, bool) result.  Rust aliasing through Arc is reproduced by writing
every mutated child back into the parent's children slot, including on the
early returns that only touch a child's to_del_map.  Locks, latches, the db
and the cache carry no tree state and are dropped.  The recursion is driven
by a fuel argument; every recursive call strictly increases pos, so fuel
key_path.length + 1 (what MPT.insert passes) can never run out; the fuel-0
fallback and the next_node-None fallback (source NodeNotFound error) return
the node unchanged.  The Rust code indexes current_key_suffix[0] when a leaf
splits with an empty current remainder (a reachable panic); the model reads
those indices with getD 0.
-/
def recursive_insert_full_node (fuel : Nat) (key_path : List Nat) (pos : Nat)
    (value : List Nat) (full_node : FullNode) (is_primary flag : Bool) :
    FullNode × (List Nat × Bool) :=
  match fuel with
  | 0 => (full_node, ([], false))
  | fuel' + 1 =>
    if key_path.length ≤ pos then
      let old_value_str := full_node.value.getD []
      if is_primary then
        let is_change := decide (old_value_str ≠ value)
        (((full_node.set_value (some value)).set_dirty), (old_value_str, is_change))
      else
        let key_str := key_path
        let value_str := value
        if flag then
          let (kv, is_change) := KVPair.del_value ⟨key_str, old_value_str⟩ value_str
          if is_change then
            let final_value := kv.value
            (((full_node.set_value (some final_value)).set_dirty),
              ([], needDeleteOf final_value))
          else
            (full_node.set_to_del (toDelInc full_node.to_del_map key_str value_str),
              ([], false))
        else
          if 0 < toDelGet full_node.to_del_map key_str value_str then
            (full_node.set_to_del (toDelDec full_node.to_del_map key_str value_str),
              ([], false))
          else
            let (kv, is_change) := KVPair.add_value ⟨key_str, old_value_str⟩ value_str
            if is_change then
              let final_value := kv.value
              (((full_node.set_value (some final_value)).set_dirty),
                ([], needDeleteOf final_value))
            else
              (full_node, ([], false))
    else
      let index := byte_to_hex_index (key_path.getD pos 0)
      match full_node.children.getD index none with
      | none =>
        let key_str := key_path
        let value_str := value
        if ¬ is_primary && flag then
          (full_node.set_to_del (toDelInc full_node.to_del_map key_str value_str),
            ([], false))
        else if ¬ is_primary && 0 < toDelGet full_node.to_del_map key_str value_str then
          (full_node.set_to_del (toDelDec full_node.to_del_map key_str value_str),
            ([], false))
        else
          let remaining_path := key_path.drop (pos + 1)
          let suffix := hexOfNibbles remaining_path
          let leaf0 := ShortNode.new (decimalBytes (key_path.getD pos 0)) true suffix
            none (some value)
          let leafPfx := key_path.take (pos + 1)
          let moved := full_node.to_del_map.filter (fun kv => leafPfx.isPrefixOf kv.1)
          let kept := full_node.to_del_map.filter (fun kv => ¬ leafPfx.isPrefixOf kv.1)
          let leaf_node := leaf0.set_to_del moved
          let fn1 := (((full_node.set_to_del kept).set_child_at index
            (some leaf_node)).set_child_hash_at index (some leaf_node.node_hash)).set_dirty
          (fn1.update_hash, ([], false))
      | some child =>
        if child.is_leaf then
          let current_key_suffix := key_path.drop (pos + 1)
          let stored_suffix := decodeHexSuffix child.suffix
          if current_key_suffix = stored_suffix then
            let old_value_str := child.value.getD []
            let key_str := key_path
            let value_str := value
            let step : Option (List Nat × ShortNode) :=
              if is_primary then
                some (value, child)
              else if flag then
                let (kv, is_change) := KVPair.del_value ⟨key_str, old_value_str⟩ value_str
                if is_change then some (kv.value, child)
                else none
              else if 0 < toDelGet child.to_del_map key_str value_str then
                none
              else
                let (kv, is_change) := KVPair.add_value ⟨key_str, old_value_str⟩ value_str
                if is_change then some (kv.value, child)
                else none
            match step with
            | none =>
              -- to_del-only mutation of the child (cancel or deferred-delete
              -- record); the source returns before any hash is refreshed.
              let child' :=
                if ¬ is_primary && ¬ flag &&
                    0 < toDelGet child.to_del_map key_str value_str then
                  child.set_to_del (toDelDec child.to_del_map key_str value_str)
                else if ¬ is_primary && flag then
                  child.set_to_del (toDelInc child.to_del_map key_str value_str)
                else child
              (full_node.set_child_at index (some child'), ([], false))
            | some (final_value, child0) =>
              let is_change :=
                if is_primary then decide (old_value_str ≠ value) else true
              let need_delete :=
                if is_primary then false else needDeleteOf final_value
              let child' := (((child0.set_value (some final_value)).set_dirty)).update_hash
              let fn1 := (((full_node.set_child_at index (some child')).set_child_hash_at
                index (some child'.node_hash)).set_dirty).update_hash
              if is_primary then (fn1, (old_value_str, is_change))
              else (fn1, ([], need_delete))
          else
            if ¬ is_primary && flag then
              let child' := child.set_to_del (toDelInc child.to_del_map key_path value)
              (full_node.set_child_at index (some child'), ([], false))
            else
              let old_value := child.value.getD []
              let had_old_value := decide (old_value ≠ [])
              let old_data := child.value
              let common_len := common_prefix_len current_key_suffix stored_suffix
              if common_len = 0 then
                let nb0 := FullNode.new emptyChildren none
                let nb1 :=
                  if stored_suffix ≠ [] then
                    let old_index := byte_to_hex_index (stored_suffix.getD 0 0)
                    let old_leaf := ShortNode.new [] true
                      (hexOfNibbles (stored_suffix.drop 1)) none old_data
                    (nb0.set_child_at old_index (some old_leaf)).set_child_hash_at
                      old_index (some old_leaf.node_hash)
                  else nb0.set_value old_data
                let new_index := byte_to_hex_index (current_key_suffix.getD 0 0)
                let new_leaf := ShortNode.new [] true
                  (hexOfNibbles (current_key_suffix.drop 1)) none (some value)
                let nb2 := ((nb1.set_child_at new_index (some new_leaf)).set_child_hash_at
                  new_index (some new_leaf.node_hash)).update_hash
                let extension_node := ShortNode.new [] false [] (some nb2) none
                let fn1 := (((full_node.set_child_at index
                  (some extension_node)).set_child_hash_at index
                  (some extension_node.node_hash)).set_dirty).update_hash
                (fn1, (old_value, had_old_value))
              else
                let nb0 := FullNode.new emptyChildren none
                let old_remaining := stored_suffix.drop common_len
                let nb1 :=
                  if old_remaining = [] then nb0.set_value old_data
                  else
                    let old_index := byte_to_hex_index (old_remaining.getD 0 0)
                    let old_leaf := ShortNode.new [] true
                      (hexOfNibbles (old_remaining.drop 1)) none old_data
                    (nb0.set_child_at old_index (some old_leaf)).set_child_hash_at
                      old_index (some old_leaf.node_hash)
                let new_remaining := current_key_suffix.drop common_len
                let nb2 :=
                  if new_remaining = [] then nb1.set_value (some value)
                  else
                    let new_index := byte_to_hex_index (new_remaining.getD 0 0)
                    let new_leaf := ShortNode.new [] true
                      (hexOfNibbles (new_remaining.drop 1)) none (some value)
                    (nb1.set_child_at new_index (some new_leaf)).set_child_hash_at
                      new_index (some new_leaf.node_hash)
                let nb3 := nb2.update_hash
                if 0 < common_len then
                  let extension_node := ShortNode.new [] false
                    (hexOfNibbles (stored_suffix.take common_len)) (some nb3) none
                  let fn1 := (((full_node.set_child_at index
                    (some extension_node)).set_child_hash_at index
                    (some extension_node.node_hash)).set_dirty).update_hash
                  (fn1, (old_value, had_old_value))
                else
                  -- dead branch in the source: only children_hash is replaced
                  let fn1 := ((full_node.set_child_hash_at index
                    (some nb3.node_hash)).set_dirty).update_hash
                  (fn1, (old_value, had_old_value))
        else
          match child.next_node with
          | none => (full_node, ([], false))
          | some next_node =>
            let ext_suffix := decodeHexSuffix child.suffix
            let current_remaining := key_path.drop (pos + 1)
            let common_len := common_prefix_len ext_suffix current_remaining
            if common_len = ext_suffix.length then
              let old_next_hash := child.next_node_hash
              let (next', result) := recursive_insert_full_node fuel' key_path
                (pos + 1 + ext_suffix.length) value next_node is_primary flag
              let new_next_hash := next'.node_hash
              let child1 := child.set_next (some next')
              if old_next_hash ≠ new_next_hash then
                let child2 := (((child1.set_next_hash
                  new_next_hash).set_dirty)).update_hash
                let fn1 := (((full_node.set_child_at index
                  (some child2)).set_child_hash_at index
                  (some child2.node_hash)).set_dirty).update_hash
                (fn1, result)
              else
                (full_node.set_child_at index (some child1), result)
            else if common_len = current_remaining.length then
              let commonPfxStr := hexOfNibbles (ext_suffix.take common_len)
              let split_index := ext_suffix.getD common_len 0
              let child1 := (((child.set_suffix
                (hexOfNibbles (ext_suffix.drop (common_len + 1)))).set_dirty)).update_hash
              let nb0 := FullNode.new emptyChildren (some value)
              let nb1 := (((nb0.set_child_at (byte_to_hex_index split_index)
                (some child1)).set_child_hash_at (byte_to_hex_index split_index)
                (some child1.node_hash))).update_hash
              if 0 < common_len then
                let new_extension := ShortNode.new [] false commonPfxStr (some nb1) none
                let fn1 := (((full_node.set_child_at index
                  (some new_extension)).set_child_hash_at index
                  (some new_extension.node_hash)).set_dirty).update_hash
                (fn1, ([], false))
              else
                -- the source replaces only children_hash here; the children
                -- slot keeps the (suffix-rewritten) extension node
                let fn1 := (((full_node.set_child_at index
                  (some child1)).set_child_hash_at index
                  (some nb1.node_hash)).set_dirty).update_hash
                (fn1, ([], false))
            else
              let commonPfxStr := hexOfNibbles (ext_suffix.take common_len)
              let ext_split_index := ext_suffix.getD common_len 0
              let child1 := (((child.set_suffix
                (hexOfNibbles (ext_suffix.drop (common_len + 1)))).set_dirty)).update_hash
              let new_key_split_index := current_remaining.getD common_len 0
              let new_leaf := ShortNode.new [] true
                (hexOfNibbles (current_remaining.drop (common_len + 1))) none (some value)
              let nb0 := FullNode.new emptyChildren none
              let nb1 := (((((nb0.set_child_at (byte_to_hex_index ext_split_index)
                (some child1)).set_child_hash_at (byte_to_hex_index ext_split_index)
                (some child1.node_hash)).set_child_at
                (byte_to_hex_index new_key_split_index)
                (some new_leaf)).set_child_hash_at
                (byte_to_hex_index new_key_split_index)
                (some new_leaf.node_hash))).update_hash
              if 0 < common_len then
                let new_extension := ShortNode.new [] false commonPfxStr (some nb1) none
                let fn1 := (((full_node.set_child_at index
                  (some new_extension)).set_child_hash_at index
                  (some new_extension.node_hash)).set_dirty).update_hash
                (fn1, ([], false))
              else
                let wrapper_extension := ShortNode.new [] false [] (some nb1) none
                let fn1 := (((full_node.set_child_at index
                  (some wrapper_extension)).set_child_hash_at index
                  (some wrapper_extension.node_hash)).set_dirty).update_hash
                (fn1, ([], false))

/-- Source ProofElement (mpt/proof.rs); the `prefix` field is renamed pfx
(Lean keyword).  An empty next_node_hash Vec is none, a 32-byte one is some;
children_hashes slots hold none for the empty Vec. -/
structure ProofElement where
  level : Nat
  proof_type : Nat
  pfx : List Nat
  suffix : List Nat
  value : List Nat
  next_node_hash : Option HashV
  children_hashes : List (Option HashV)
deriving DecidableEq

/-- Source MPTProof. -/
structure MPTProof where
  is_exist : Bool
  levels : Nat
  proofs : List ProofElement
deriving DecidableEq

/-- Source MPT state: root hash plus the optional in-memory root. -/
structure MPT where
  root_hash : HashV
  root : Option FullNode

/-- MPT::new / Default: zero root hash, no root node. -/
def MPT.new : MPT := { root_hash := zeroHash, root := none }

/-- MPT::insert: key to hex path, ensure_root, recursive insert,
update_root_hash. -/
def MPT.insert (m : MPT) (kv : KVPair) (is_primary flag : Bool) :
    MPT × (List Nat × Bool) :=
  let key_path := key_to_hex_path kv.key
  let root0 := match m.root with
    | some r => r
    | none => FullNode.new emptyChildren none
  let (root', res) := recursive_insert_full_node (key_path.length + 1) key_path 0
    kv.value root0 is_primary flag
  ({ root_hash := root'.node_hash, root := some root' }, res)

/-- Source MPT::recursive_query_full_node.  Children that are present only
as a hash would be read from the (empty) db, which fails, giving the same
not-exist result as an absent child. -/
def recursive_query_full_node (fuel : Nat) (key_path : List Nat) (pos level : Nat)
    (full_node : FullNode) : List Nat × MPTProof :=
  let proof_element : ProofElement :=
    { level := level, proof_type := 2, pfx := [], suffix := [],
      value := full_node.value.getD [], next_node_hash := none,
      children_hashes := full_node.children_hash }
  match fuel with
  | 0 => ([], { is_exist := false, levels := level, proofs := [proof_element] })
  | fuel' + 1 =>
    if key_path.length ≤ pos then
      match full_node.value with
      | some v => (v, { is_exist := true, levels := level, proofs := [proof_element] })
      | none => ([], { is_exist := false, levels := level, proofs := [proof_element] })
    else
      let index := byte_to_hex_index (key_path.getD pos 0)
      match full_node.children.getD index none with
      | none =>
        ([], { is_exist := false, levels := level, proofs := [proof_element] })
      | some child =>
        if child.is_leaf then
          let current_key_suffix := key_path.drop (pos + 1)
          let stored_suffix := decodeHexSuffix child.suffix
          let leaf_proof : ProofElement :=
            { level := level + 1, proof_type := 0, pfx := child.pfx,
              suffix := child.suffix, value := child.value.getD [],
              next_node_hash := none, children_hashes := List.replicate 16 none }
          if current_key_suffix = stored_suffix then
            match child.value with
            | some v =>
              (v, { is_exist := true, levels := level + 1,
                    proofs := [leaf_proof, proof_element] })
            | none =>
              ([], { is_exist := false, levels := level + 1,
                     proofs := [leaf_proof, proof_element] })
          else
            ([], { is_exist := false, levels := level + 1,
                   proofs := [leaf_proof, proof_element] })
        else
          match child.next_node with
          | none =>
            ([], { is_exist := false, levels := level, proofs := [proof_element] })
          | some next_node =>
            let ext_suffix := decodeHexSuffix child.suffix
            let current_remaining := key_path.drop (pos + 1)
            if ext_suffix.length ≤ current_remaining.length then
              if current_remaining.take ext_suffix.length = ext_suffix then
                let ext_proof : ProofElement :=
                  { level := level + 1, proof_type := 1, pfx := child.pfx,
                    suffix := child.suffix, value := [],
                    next_node_hash := some child.next_node_hash,
                    children_hashes := List.replicate 16 none }
                let (v, sub) := recursive_query_full_node fuel' key_path
                  (pos + 1 + ext_suffix.length) (level + 2) next_node
                (v, { is_exist := sub.is_exist, levels := sub.levels,
                      proofs := sub.proofs ++ [ext_proof, proof_element] })
              else
                ([], { is_exist := false, levels := level, proofs := [proof_element] })
            else
              ([], { is_exist := false, levels := level, proofs := [proof_element] })

/-- MPT::query_by_key.  When there is no in-memory root, get_root consults
the root hash and then the (empty) db, landing in the empty-proof branch. -/
def MPT.query_by_key (m : MPT) (key : List Nat) : List Nat × MPTProof :=
  let key_path := key_to_hex_path key
  match m.root with
  | some root => recursive_query_full_node (key_path.length + 1) key_path 0 0 root
  | none =>
    ([], { is_exist := false, levels := 0,
           proofs := [{ level := 0, proof_type := 2, pfx := [], suffix := [],
                        value := [], next_node_hash := none,
                        children_hashes := List.replicate 16 none }] })

/-- Initial node_hash_0 of proof::compute_mpt_root: the claimed value copied
into a zeroed 32-byte array, or its hash when longer than 32 bytes. -/
def computeInitial (value : List Nat) : HashV :=
  if value.length ≤ 32 then HashV.valPad (value ++ List.replicate (32 - value.length) 0)
  else HashV.sha (bytesSeq value)

/-- One iteration of the compute_mpt_root loop; none models the early
[0u8;32] return on a failed check or unknown proof type. -/
def computeStep (is_exist : Bool) (levels : Nat) (value : List Nat)
    (acc : HashV) (e : ProofElement) : Option HashV :=
  if e.proof_type = 0 then
    some (HashV.sha (HSeq.append (bytesSeq e.pfx) (HSeq.append (bytesSeq e.suffix)
      (bytesSeq (if is_exist then value else e.value)))))
  else if e.proof_type = 1 then
    let ok := if e.level ≠ levels then
        match e.next_node_hash with
        | some h => decide (h = acc)
        | none => true
      else true
    if ok then
      some (HashV.sha (HSeq.append (bytesSeq e.pfx) (HSeq.append (bytesSeq e.suffix)
        (match e.next_node_hash with
         | some h => HSeq.hash h HSeq.nil
         | none => HSeq.nil))))
    else none
  else if e.proof_type = 2 then
    let ok := if e.level ≠ levels then
        e.children_hashes.any (fun ch => ch = some acc)
      else true
    if ok then some (fullHashOf e.children_hashes (some e.value))
    else none
  else none

def compute_mpt_rootAux (is_exist : Bool) (levels : Nat) (value : List Nat) :
    HashV → List ProofElement → HashV
  | acc, [] => acc
  | acc, e :: rest =>
    match computeStep is_exist levels value acc e with
    | some acc' => compute_mpt_rootAux is_exist levels value acc' rest
    | none => zeroHash

/-- Source proof::compute_mpt_root. -/
def compute_mpt_root (value : List Nat) (p : MPTProof) : HashV :=
  compute_mpt_rootAux p.is_exist p.levels value (computeInitial value) p.proofs

/-- MPT::verify_query_result: recomputed root equals the stored root hash. -/
def MPT.verify_query_result (m : MPT) (value : List Nat) (p : MPTProof) : Bool :=
  decide (compute_mpt_root value p = m.root_hash)

/-- The key "ab" ([0x61, 0x62]), hex path [6,1,6,2]. -/
def keyAB : Str := [97, 98]

/-- The value "v". -/
def valV : Str := [118]

/-- A secondary-index add arrival (is_primary = false, flag = false). -/
def mptAdd (m : MPT) : MPT := (m.insert { key := keyAB, value := valV } false false).1

/-- A secondary-index delete arrival (is_primary = false, flag = true). -/
def mptDel (m : MPT) : MPT := (m.insert { key := keyAB, value := valV } false true).1

/-- The multiset {add, add, delete} arriving as add, add, delete. -/
def mptAddAddDel : MPT := mptDel (mptAdd (mptAdd MPT.new))

/-- The same multiset arriving as add, delete, add. -/
def mptAddDelAdd : MPT := mptAdd (mptDel (mptAdd MPT.new))

/-- The multiset {add, delete} arriving as add then delete. -/
def mptAddDel : MPT := mptDel (mptAdd MPT.new)

/-- The multiset {add, delete} arriving as delete then add. -/
def mptDelAdd : MPT := mptAdd (mptDel MPT.new)

set_option maxRecDepth 400000 in
/-- CLAIM C3 (counterexample): arrival order is NOT commutative.  For the
multiset of two secondary-index adds and one delete of (key "ab",
value "v"), the order add,add,delete ends with the posting list "" stored
under the key (the duplicate add is absorbed by the substring check, the
delete then erases the value), while add,delete,add ends with "v"; the
queried CSV values and the root hashes both differ. -/
theorem c3_arrival_order_counterexample :
    (mptAddAddDel.query_by_key keyAB).1 = [] ∧
    (mptAddDelAdd.query_by_key keyAB).1 = valV ∧
    mptAddAddDel.root_hash ≠ mptAddDelAdd.root_hash := by
  refine ⟨by decide, by decide, by decide⟩

set_option maxRecDepth 400000 in
/-- CLAIM C3 (amended): for the one-add-one-delete multiset on
(key "ab", value "v") the decoded posting list is the same (empty) in both
arrival orders — delete-then-add leaves only a cancelled deferred-delete
record while add-then-delete stores the key with an empty CSV — but the two
final trees are observably different: the root hashes (and hence the tree
shapes) disagree, because one tree contains a leaf with value "" and the
other contains no leaf at all. -/
theorem c3_single_add_delete_csv :
    (mptAddDel.query_by_key keyAB).1 = [] ∧
    (mptDelAdd.query_by_key keyAB).1 = [] ∧
    mptAddDel.root_hash ≠ mptDelAdd.root_hash := by
  refine ⟨by decide, by decide, by decide⟩

/-- Primary-index MPT holding "a" -> "1" and "ab" -> "2"; the query for "a"
terminates at a branch node whose value is "1". -/
def mptPrimaryTwo : MPT :=
  ((MPT.new.insert { key := [97], value := [49] } true false).1.insert
    { key := keyAB, value := [50] } true false).1

/-- The (value, proof) pair query_by_key returns for "a". -/
def mptQueryA : List Nat × MPTProof := mptPrimaryTwo.query_by_key [97]

set_option maxRecDepth 400000 in
/-- CLAIM C2 (counterexample): proof soundness fails.  In the tree holding
"a" -> "1" and "ab" -> "2", querying "a" returns value "1" with an
existence proof whose first element is the terminating branch node; the
verifier then accepts the wrong claimed value "9" against that very proof,
because compute_mpt_root never feeds the claimed value into a branch-
terminated hash chain. -/
theorem c2_soundness_counterexample :
    mptQueryA.1 = [49] ∧
    mptPrimaryTwo.verify_query_result [57] mptQueryA.2 = true ∧
    ([57] : List Nat) ≠ [49] := by
  refine ⟨by decide, by decide, by decide⟩

/-- computeStep reads the claimed value only in its leaf (proof_type 0)
branch. -/
theorem computeStep_value_indep (ie : Bool) (lv : Nat) (v1 v2 : List Nat)
    (acc : HashV) (e : ProofElement) (h : ¬ e.proof_type = 0) :
    computeStep ie lv v1 acc e = computeStep ie lv v2 acc e := by
  unfold computeStep
  rw [if_neg h, if_neg h]

/-- Over leaf-free proof lists the compute_mpt_root loop is independent of
the claimed value. -/
theorem compute_aux_value_indep (ie : Bool) (lv : Nat) (v1 v2 : List Nat) :
    ∀ (elems : List ProofElement), (∀ e ∈ elems, ¬ e.proof_type = 0) →
    ∀ acc : HashV,
    compute_mpt_rootAux ie lv v1 acc elems = compute_mpt_rootAux ie lv v2 acc elems
  | [], _, _ => rfl
  | e :: rest, h, acc => by
    unfold compute_mpt_rootAux
    rw [computeStep_value_indep ie lv v1 v2 acc e (h e (by simp))]
    cases hc : computeStep ie lv v2 acc e with
    | none => rfl
    | some acc' =>
      exact compute_aux_value_indep ie lv v1 v2 rest
        (fun e' he' => h e' (by simp [he'])) acc'

/-- CLAIM C2 (amended): the iff fails, and the failure is systematic: any
proof whose first element is a branch node at the bottom level (a lookup
that terminated on a branch-stored value) followed only by non-leaf
elements is verified identically for every claimed value, so
verify_query_result accepts arbitrary wrong values against such proofs. -/
theorem c2_branch_terminal_ignores_value (m : MPT) (p : MPTProof)
    (e0 : ProofElement) (rest : List ProofElement)
    (hp : p.proofs = e0 :: rest) (h0 : e0.proof_type = 2)
    (hl : e0.level = p.levels) (hrest : ∀ e ∈ rest, ¬ e.proof_type = 0)
    (v1 v2 : List Nat) :
    m.verify_query_result v1 p = m.verify_query_result v2 p := by
  suffices hroot : compute_mpt_root v1 p = compute_mpt_root v2 p by
    rw [MPT.verify_query_result, MPT.verify_query_result, hroot]
  unfold compute_mpt_root
  rw [hp]
  unfold compute_mpt_rootAux
  have hstep : ∀ v acc, computeStep p.is_exist p.levels v acc e0 =
      some (fullHashOf e0.children_hashes (some e0.value)) := by
    intro v acc
    have hne0 : ¬ e0.proof_type = 0 := by simp [h0]
    have hne1 : ¬ e0.proof_type = 1 := by simp [h0]
    have hnel : ¬ e0.level ≠ p.levels := by simp [hl]
    unfold computeStep
    rw [if_neg hne0, if_neg hne1, if_pos h0, if_neg hnel]
    rfl
  rw [hstep, hstep]
  exact compute_aux_value_indep p.is_exist p.levels v1 v2 rest hrest _

set_option maxRecDepth 400000 in
/-- Witness for c2_branch_terminal_ignores_value at the concrete two-key
tree: the proof for "a" starts with a bottom-level branch element and
contains no further leaf element, and verification of the wrong value "9"
coincides with verification of the true value "1" (both accept). -/
theorem c2_branch_terminal_ignores_value_witness :
    mptPrimaryTwo.verify_query_result [57] mptQueryA.2 =
      mptPrimaryTwo.verify_query_result [49] mptQueryA.2 :=
  c2_branch_terminal_ignores_value mptPrimaryTwo mptQueryA.2
    (mptQueryA.2.proofs.headD
      { level := 0, proof_type := 0, pfx := [], suffix := [], value := [],
        next_node_hash := none, children_hashes := [] })
    mptQueryA.2.proofs.tail (by decide) (by decide) (by decide)
    (by decide) [57] [49]
